import Mathlib

/-!
# Verification of the inequality-solving core of `app.py`

This file gives a shallow embedding of the solution-set core of the
`nikossampanis/inequalities` Streamlit application (`src/app.py`) and proves
the frozen claims about it.

The application represents solution sets with SymPy values.  We mirror the
SymPy set values the program actually manipulates: `EmptySet`, `FiniteSet`
of rational points, `Interval` with rational or infinite endpoints (SymPy's
`S.Reals` is itself the interval `(-oo, oo)`), and canonical `Union`s of
such components.  Pure string-processing functions of `app.py`
(`normalize_input`, the operator scan of `parse_inequality`,
`parse_student_set`, `endpoint_explanation`, `plot_number_line`, the
grading comparison of `do_check`) are translated directly from the source.
SymPy library calls (`sympify` on numeric literals, the `Interval`
constructor, `Intersection`/`Union` evaluation, `simplify` on sets,
`solve_univariate_inequality`) are modelled by their documented set
semantics, as stated in each doc comment.
-/

/-- An interval endpoint: negative infinity, a finite rational, or positive
infinity.  The application only ever builds intervals whose finite endpoints
are rational numbers (roots of the exercise polynomials and student-typed
literals). -/
inductive EPt where
  | ninf : EPt
  | fin : ℚ → EPt
  | pinf : EPt
deriving DecidableEq, Repr

/-- Order-embedding of endpoints into `ℤ ×ₗ ℚ` used to transport the linear
order: `-∞ ↦ (-1, 0)`, `q ↦ (0, q)`, `∞ ↦ (1, 0)`. -/
def EPt.key : EPt → Lex (ℤ × ℚ)
  | .ninf => toLex (-1, 0)
  | .fin q => toLex (0, q)
  | .pinf => toLex (1, 0)

instance : LinearOrder EPt :=
  LinearOrder.lift' EPt.key (by
    intro a b h
    cases a <;> cases b <;> simp only [EPt.key, toLex_inj, Prod.mk.injEq] at h <;>
      first
        | rfl
        | (exact congrArg EPt.fin h.2)
        | (exfalso; omega))

/-- A SymPy `Interval` value: start, end, and the two openness flags, exactly
the data SymPy's `Interval(a, b, left_open, right_open)` carries. -/
structure Ivl where
  lo : EPt
  hi : EPt
  lopen : Bool
  ropen : Bool
deriving DecidableEq, Repr

/-- Order-embedding of intervals into a lexicographic product, giving the
canonical sort order on interval components (by start, then start-openness,
then end, then end-openness). -/
def Ivl.key (I : Ivl) : Lex (EPt × Lex (Bool × Lex (EPt × Bool))) :=
  toLex (I.lo, toLex (I.lopen, toLex (I.hi, I.ropen)))

instance : LinearOrder Ivl :=
  LinearOrder.lift' Ivl.key (by
    intro a b h
    simp only [Ivl.key, toLex_inj, Prod.mk.injEq] at h
    obtain ⟨h1, h2, h3, h4⟩ := h
    cases a; cases b; simp_all)

/-- A component of a SymPy `Union`: either an `Interval` or a (nonempty)
`FiniteSet` of rational points. -/
inductive USet where
  | iv : Ivl → USet
  | fin : List ℚ → USet
deriving DecidableEq, Repr

/-- A SymPy set value as produced by the solver and the student-set parser:
`EmptySet`, a single component (`Interval`, which includes `S.Reals`
as `Interval(-oo, oo)`, or `FiniteSet`), or a `Union` of several
components. -/
inductive SymSet where
  | empty : SymSet
  | one : USet → SymSet
  | union : List USet → SymSet
deriving DecidableEq, Repr

/-- The SymPy value `S.Reals`, i.e. the interval `(-oo, oo)`. -/
def realsSym : SymSet := .one (.iv ⟨.ninf, .pinf, true, true⟩)

/-- Interval components of a set value (in `Union` order). -/
def SymSet.ivls : SymSet → List Ivl
  | .empty => []
  | .one (.iv I) => [I]
  | .one (.fin _) => []
  | .union args => args.filterMap fun u => match u with | .iv I => some I | .fin _ => none

/-- Finite-point components of a set value. -/
def SymSet.pts : SymSet → List ℚ
  | .empty => []
  | .one (.iv _) => []
  | .one (.fin ps) => ps
  | .union args => args.flatMap fun u => match u with | .iv _ => [] | .fin ps => ps

/-- Does the real `x` satisfy the left boundary `e` (with openness `o`)? -/
def loHolds : EPt → Bool → ℝ → Prop
  | .ninf, _, _ => True
  | .pinf, _, _ => False
  | .fin q, true, x => (q : ℝ) < x
  | .fin q, false, x => (q : ℝ) ≤ x

/-- Does the real `x` satisfy the right boundary `e` (with openness `o`)? -/
def hiHolds : EPt → Bool → ℝ → Prop
  | .ninf, _, _ => False
  | .pinf, _, _ => True
  | .fin q, true, x => x < (q : ℝ)
  | .fin q, false, x => x ≤ (q : ℝ)

/-- Real membership in an interval value. -/
def Ivl.memR (I : Ivl) (x : ℝ) : Prop :=
  loHolds I.lo I.lopen x ∧ hiHolds I.hi I.ropen x

/-- Real membership in a union component. -/
def USet.memR : USet → ℝ → Prop
  | .iv I, x => I.memR x
  | .fin ps, x => ∃ q ∈ ps, (q : ℝ) = x

/-- The set of reals denoted by a SymPy set value. -/
def SymSet.toSet : SymSet → Set ℝ
  | .empty => ∅
  | .one u => {x | u.memR x}
  | .union args => {x | ∃ u ∈ args, u.memR x}

/-- Rational test: does `p` satisfy the left boundary? -/
def loHoldsQ : EPt → Bool → ℚ → Bool
  | .ninf, _, _ => true
  | .pinf, _, _ => false
  | .fin q, true, p => q < p
  | .fin q, false, p => q ≤ p

/-- Rational test: does `p` satisfy the right boundary? -/
def hiHoldsQ : EPt → Bool → ℚ → Bool
  | .ninf, _, _ => false
  | .pinf, _, _ => true
  | .fin q, true, p => p < q
  | .fin q, false, p => p ≤ q

/-- Rational membership test in an interval value. -/
def Ivl.memQ (I : Ivl) (p : ℚ) : Bool :=
  loHoldsQ I.lo I.lopen p && hiHoldsQ I.hi I.ropen p

/-- Rational membership test in a set value. -/
def SymSet.memQ (S : SymSet) (p : ℚ) : Bool :=
  (S.ivls.any fun I => I.memQ p) || (S.pts.any fun q => q == p)

/-- Model of SymPy's `Interval(a, b, lopen, ropen)` constructor followed by
intersection with `S.Reals`, restricted to the proper-interval outcome:
returns the normalized interval when `a < b` (forcing infinite endpoints
open, as the constructor does), and `none` when the constructor yields
`EmptySet` or a `FiniteSet` point instead. -/
def normIv (I : Ivl) : Option Ivl :=
  if I.lo < I.hi then
    some ⟨I.lo, I.hi,
      (if I.lo = .ninf then true else I.lopen),
      (if I.hi = .pinf then true else I.ropen)⟩
  else none

/-- Model of the degenerate outcome of SymPy's `Interval` constructor:
`Interval(a, a)` with both ends closed is `FiniteSet(a)` (kept only for
finite `a`, since the sets are then intersected with `S.Reals`). -/
def degPt (I : Ivl) : Option ℚ :=
  match I.lo, I.hi with
  | .fin a, .fin b => if a = b ∧ I.lopen = false ∧ I.ropen = false then some a else none
  | _, _ => none

/-- Are two interval components (with `I` sorted before `J`) separated, i.e.
NOT mergeable into one interval?  They are separated when `I` ends strictly
before `J` starts, or they touch at one point with both sides open. -/
def sepB (I J : Ivl) : Bool :=
  decide (I.hi < J.lo) || (decide (I.hi = J.lo) && I.ropen && J.lopen)

/-- Join two overlapping-or-adjacent interval components with `I` sorted
before `J` (so `I.lo ≤ J.lo` lexicographically). -/
def joinIvl (I J : Ivl) : Ivl :=
  ⟨I.lo, max I.hi J.hi,
    I.lopen,
    (if I.hi < J.hi then J.ropen else if J.hi < I.hi then I.ropen else (I.ropen && J.ropen))⟩

/-- Fuel-driven merge of adjacent/overlapping interval components of a
sorted list (each step shrinks the list, so fuel = length suffices). -/
def mergeAdjGo : ℕ → List Ivl → List Ivl
  | 0, l => l
  | _ + 1, [] => []
  | _ + 1, [I] => [I]
  | f + 1, I :: J :: rest =>
    if sepB I J then I :: mergeAdjGo f (J :: rest) else mergeAdjGo f (joinIvl I J :: rest)

/-- One left-to-right pass merging adjacent/overlapping interval components
of a sorted list, modelling the canonical `Union` reduction. -/
def mergeAdj (l : List Ivl) : List Ivl := mergeAdjGo l.length l

/-- Remove consecutive duplicates of a sorted rational list. -/
def dedupSorted : List ℚ → List ℚ
  | [] => []
  | [a] => [a]
  | a :: b :: rest => if a = b then dedupSorted (b :: rest) else a :: dedupSorted (b :: rest)

/-- Close any open finite endpoint of `I` that coincides with one of the
points `ps` (the point is then absorbed into the interval, as the canonical
`Union` reduction does). -/
def closeAt (ps : List ℚ) (I : Ivl) : Ivl :=
  ⟨I.lo, I.hi,
    (match I.lo with | .fin q => if ps.contains q then false else I.lopen | _ => I.lopen),
    (match I.hi with | .fin q => if ps.contains q then false else I.ropen | _ => I.ropen)⟩

/-- Is `p` a finite endpoint of some interval in the list? -/
def isBoundary (p : ℚ) (l : List Ivl) : Bool :=
  l.any fun I => I.lo = .fin p || I.hi = .fin p

/-- Assemble canonical components into a SymPy set value: no component is
`EmptySet`, one component stands alone, several make a `Union` (with the
`FiniteSet` of leftover points listed first). -/
def assemble : List Ivl → List ℚ → SymSet
  | [], [] => .empty
  | [I], [] => .one (.iv I)
  | [], ps => .one (.fin ps)
  | Is, [] => .union (Is.map .iv)
  | Is, ps => .union (.fin ps :: Is.map .iv)

/-- Model of the canonical simplification SymPy applies to the set values of
the program (the evaluating `Union`/`Intersection` constructors and
`sp.simplify` on sets): normalize every raw interval through the `Interval`
constructor semantics, sort and merge the proper intervals, sort and
deduplicate the finite points, absorb points lying inside or on the open
boundary of an interval, and assemble the canonical value. -/
def canonize (raw : List Ivl) (rawPts : List ℚ) : SymSet :=
  let ivs := mergeAdj (List.insertionSort (· ≤ ·) (raw.filterMap normIv))
  let ps := dedupSorted (List.insertionSort (· ≤ ·) (rawPts ++ raw.filterMap degPt))
  if ps.isEmpty then assemble ivs []
  else
    let ps1 := ps.filter fun p => !(ivs.any fun I => I.memQ p)
    let ivs1 := mergeAdj (List.insertionSort (· ≤ ·) (ivs.map (closeAt ps1)))
    assemble ivs1 (ps1.filter fun p => !(isBoundary p ivs))

/-- Model of `sp.simplify` on an already-structured set value: re-canonize
its components. -/
def simplifySym (S : SymSet) : SymSet := canonize S.ivls S.pts

/-- Raw intersection of two interval values: the larger start, the smaller
end, an endpoint being open if it is open on the side it comes from (open
wins on ties).  The result may be empty or degenerate; `canonize` sorts
that out. -/
def rawInter (I J : Ivl) : Ivl :=
  ⟨(if I.lo < J.lo then J.lo else I.lo),
   (if I.hi < J.hi then I.hi else J.hi),
   (if I.lo < J.lo then J.lopen else if J.lo < I.lo then I.lopen else (I.lopen || J.lopen)),
   (if I.hi < J.hi then I.ropen else if J.hi < I.hi then J.ropen else (I.ropen || J.ropen))⟩

/-- Model of SymPy's evaluating `Intersection` of two of the program's set
values: intersect interval components pairwise, keep each point component
that belongs to the other set, and canonicalize. -/
def interSym (A B : SymSet) : SymSet :=
  canonize (A.ivls.flatMap fun I => B.ivls.map fun J => rawInter I J)
    ((A.pts.filter fun p => B.memQ p) ++ (B.pts.filter fun p => A.memQ p))

/-- The combined-solution fold of the explore tab (`app.py` lines 410-413):
`common = sols[0]`, then pairwise `sp.Intersection`, then `sp.simplify`. -/
def combinedSolution (first : SymSet) (rest : List SymSet) : SymSet :=
  simplifySym (rest.foldl interSym first)

/-- Python `str.strip()`: drop leading and trailing whitespace. -/
def stripWS (l : List Char) : List Char :=
  ((l.dropWhile Char.isWhitespace).reverse.dropWhile Char.isWhitespace).reverse

/-- Python `str.replace(c, rep)` for a single-character pattern. -/
def replaceChar (c : Char) (rep : List Char) (l : List Char) : List Char :=
  l.flatMap fun a => if a = c then rep else [a]

/-- Python `str.split(c)` for a single-character separator. -/
def splitChar (c : Char) : List Char → List (List Char)
  | [] => [[]]
  | a :: as =>
    match splitChar c as with
    | [] => [[]]
    | h :: t => if a = c then [] :: h :: t else (a :: h) :: t

/-- Is `pat` a prefix of `s`? -/
def listPre : List Char → List Char → Bool
  | [], _ => true
  | _ :: _, [] => false
  | a :: as, b :: bs => a == b && listPre as bs

/-- Split `s` at the first occurrence of `pat` (Python `s.split(pat, 1)`),
returning the parts before and after, or `none` if `pat` does not occur. -/
def splitFirst (s pat : List Char) : Option (List Char × List Char) :=
  if listPre pat s then some ([], s.drop pat.length)
  else
    match s with
    | [] => none
    | c :: s' => (splitFirst s' pat).map fun p => (c :: p.1, p.2)

/-- Python `pat in s` (substring test). -/
def hasSub (s pat : List Char) : Bool := (splitFirst s pat).isSome

/-- The character for a decimal digit. -/
def digitChar (d : ℕ) : Char := Char.ofNat (48 + d)

/-- The value of a decimal digit character. -/
def digitVal (c : Char) : ℕ := c.toNat - 48

/-- Little-endian base-10 digits by fuel-driven division (the fuel `n`
itself always suffices). -/
def digitsFuel : ℕ → ℕ → List ℕ
  | 0, _ => []
  | f + 1, n => if n = 0 then [] else n % 10 :: digitsFuel f (n / 10)

/-- Decimal digits of a natural number, most significant first. -/
def natToChars (n : ℕ) : List Char :=
  if n = 0 then ['0'] else ((digitsFuel n n).map digitChar).reverse

/-- Parse a nonempty all-digit string as a natural number. -/
def charsToNat (l : List Char) : Option ℕ :=
  if l ≠ [] ∧ l.all Char.isDigit then some (Nat.ofDigits 10 ((l.map digitVal).reverse))
  else none

/-- Exact rendering of a rational bound, as SymPy's `pretty` prints the
rational numbers of this program: the integer part, and `num/den` for
non-integers. -/
def fmtQ (q : ℚ) : List Char :=
  (if q < 0 then ['-'] else []) ++
    natToChars q.num.natAbs ++
    (if q.den = 1 then [] else '/' :: natToChars q.den)

/-- Formatted endpoint as printed by `endpoint_explanation`: the literal
`-∞` and `∞` for the infinities, exact rationals otherwise. -/
def fmtEP : EPt → List Char
  | .ninf => ['-', '∞']
  | .pinf => ['∞']
  | .fin q => fmtQ q

/-- Modelled from the spec: `sympify` on the student's bound text, where
the grammar allows "numeric literals or an infinity token" (after `∞` was
replaced by `oo`).  Understands an optional leading minus, the token `oo`,
an integer, or a fraction `a/b`; anything else is a conversion failure
(Python exception). -/
def numParsePos (l : List Char) : Option EPt :=
  if l = ['o', 'o'] then some .pinf
  else
    match splitFirst l ['/'] with
    | none => (charsToNat l).map fun n => .fin (n : ℚ)
    | some (a, b) =>
      match charsToNat a, charsToNat b with
      | some n, some d => if d ≠ 0 then some (.fin ((n : ℚ) / (d : ℚ))) else none
      | _, _ => none

/-- Negate an endpoint (for a leading minus sign). -/
def negEP : EPt → EPt
  | .ninf => .pinf
  | .pinf => .ninf
  | .fin q => .fin (-q)

/-- Modelled from the spec: full numeric-literal conversion with optional
sign. -/
def numParse : List Char → Option EPt
  | [] => none
  | c :: rest => if c = '-' then (numParsePos rest).map negEP else numParsePos (c :: rest)

/-- The two character substitutions `parse_student_set` applies before
splitting on the union marker: `∞ -> oo`, then removal of spaces. -/
def postChars (l : List Char) : List Char :=
  replaceChar ' ' [] (replaceChar '∞' ['o', 'o'] l)

/-- Match one student-answer part against the source regex
`^([\(\[])([^,]+),([^)\]]+)([\)\]])$` (app.py line 310): an opening
bracket, a nonempty comma-free first bound, a comma, a nonempty second
bound free of closing brackets, and a closing bracket.  Returns the two
openness flags (`(`/`)` mean open) and the raw bound texts. -/
def matchPart (p : List Char) : Option (Bool × List Char × List Char × Bool) :=
  match p with
  | [] => none
  | lbr :: rest =>
    if lbr = '(' ∨ lbr = '[' then
      match rest.getLast? with
      | none => none
      | some rbr =>
        if rbr = ')' ∨ rbr = ']' then
          match splitFirst rest.dropLast [','] with
          | none => none
          | some (a, b) =>
            if a ≠ [] ∧ b ≠ [] ∧ b.all (fun c => c ≠ ')' ∧ c ≠ ']') then
              some (decide (lbr = '('), a, b, decide (rbr = ')'))
            else none
        else none
    else none

/-- The part loop of `parse_student_set` (app.py lines 309-318): each part
must match the interval regex (otherwise the whole parse returns `None`),
and its bounds must convert (otherwise Python raises, modelled as
`Except.error`). -/
def collectParts : List (List Char) → Except Unit (Option (List Ivl))
  | [] => .ok (some [])
  | p :: rest =>
    match matchPart p with
    | none => .ok none
    | some (lopn, a, b, ropn) =>
      match numParse a, numParse b with
      | some ea, some eb =>
        match collectParts rest with
        | .ok (some ivs) => .ok (some (⟨ea, eb, lopn, ropn⟩ :: ivs))
        | r => r
      | _, _ => .error ()

/-- Translation of `parse_student_set` (app.py lines 297-322): strip, normalize the union
glyph, recognize the empty-set and all-reals tokens, normalize `∞` and
remove spaces, split on `U`, match every part against the interval regex,
build the intervals, union them, intersect with the reals and simplify
(the last three steps are `canonize`). -/
def parse_student_set (s : String) : Except Unit (Option SymSet) :=
  let l := stripWS s.data
  if l = [] then .ok none
  else
    let l := replaceChar '∪' ['U'] l
    if l = "∅".data ∨ l = "EmptySet".data then .ok (some .empty)
    else if l = "R".data ∨ l = "Reals".data ∨ l = "ℝ".data then .ok (some realsSym)
    else
      match collectParts (splitChar 'U' (postChars l)) with
      | .error e => .error e
      | .ok none => .ok none
      | .ok (some ivs) => .ok (some (canonize ivs []))

/-- The grading branch of `do_check` (app.py lines 337-338):
`correct = None if student_set is None else (sp.simplify(student_set) ==
sp.simplify(sol))`. -/
def do_check_correct (user : String) (sol : SymSet) : Except Unit (Option Bool) :=
  match parse_student_set user with
  | .error e => .error e
  | .ok none => .ok none
  | .ok (some t) => .ok (some (decide (simplifySym t = simplifySym sol)))

/-- The bracket-and-bounds part of one `endpoint_explanation` line:
`{left_symbol}{fmt(a)}, {fmt(b)}{right_symbol}`. -/
def fmtIvlChars (I : Ivl) : List Char :=
  (if I.lopen then ['('] else ['[']) ++ fmtEP I.lo ++ [',', ' '] ++ fmtEP I.hi ++
    (if I.ropen then [')'] else [']'])

/-- One full description line of `endpoint_explanation` (app.py lines
62-72), including the open/closed labels. -/
def describeIvl (I : Ivl) : String :=
  String.mk (fmtIvlChars I) ++ " (αριστερό: " ++
    (if I.lopen then "ανοικτό" else "κλειστό") ++ ", δεξί: " ++
    (if I.ropen then "ανοικτό" else "κλειστό") ++ ")"

/-- Translation of `endpoint_explanation` (app.py lines 47-73): collect the `Interval`
components (a bare `Interval`, or the `Interval` arguments of a `Union`;
any other set value contributes none), return `None` when there are no
intervals, and otherwise one description line per interval. -/
def endpoint_explanation (S : SymSet) : Option (List String) :=
  if S.ivls = [] then none else some (S.ivls.map describeIvl)

/-- Modelled from the spec: the rendering that is "the inverse formatting
used in explanations" — each interval component printed exactly as the
bracket part of its `endpoint_explanation` line, joined by the union
marker of the student grammar. -/
def listIntercalate (sep : List Char) : List (List Char) → List Char
  | [] => []
  | [p] => p
  | p :: q :: rest => p ++ sep ++ listIntercalate sep (q :: rest)

/-- Modelled from the spec: render a solution set in the student notation
using the explanation formatting of each interval. -/
def renderSet (S : SymSet) : String :=
  String.mk (listIntercalate [' ', 'U', ' '] (S.ivls.map fmtIvlChars))

/-- The data of the number-line figure built by `plot_number_line`: the
baseline span, one clipped thick segment per interval component, and the
endpoint markers (position paired with `true` for a filled disc, `false`
for a hollow ring). -/
structure PlotSpec where
  baseline : ℚ × ℚ
  segments : List (ℚ × ℚ)
  markers : List (ℚ × Bool)
deriving DecidableEq, Repr

/-- The interval extraction of `plot_number_line` (app.py lines 85-93):
`EmptySet` gives none, `S.Reals` gives the full interval (in this
embedding `S.Reals` already is that `Interval`), a bare `Interval` gives
itself, a `Union` gives its `Interval` arguments, and anything else (e.g.
a bare `FiniteSet`) gives none. -/
def plotIvls (S : SymSet) : List Ivl := S.ivls

/-- The `clamp` helper of `plot_number_line` (app.py lines 95-99). -/
def clampQ (xmin xmax : ℚ) : EPt → ℚ
  | .ninf => xmin
  | .pinf => xmax
  | .fin v => max xmin (min xmax v)

/-- The markers drawn for one interval (app.py lines 106-120): each finite
endpoint lying inside `[xmin, xmax]` gets one marker, filled iff that side
is closed. -/
def markersOf (xmin xmax : ℚ) (I : Ivl) : List (ℚ × Bool) :=
  (match I.lo with
   | .fin q => if xmin ≤ q ∧ q ≤ xmax then [(q, !I.lopen)] else []
   | _ => []) ++
  (match I.hi with
   | .fin q => if xmin ≤ q ∧ q ≤ xmax then [(q, !I.ropen)] else []
   | _ => [])

/-- Translation of `plot_number_line` (app.py lines 75-122) as a pure data transform:
baseline over the viewport, one clamped segment per interval component,
and the finite-endpoint markers. -/
def plot_number_line (S : SymSet) (xmin xmax : ℚ) : PlotSpec :=
  { baseline := (xmin, xmax)
  , segments := (plotIvls S).map fun I => (clampQ xmin xmax I.lo, clampQ xmin xmax I.hi)
  , markers := (plotIvls S).flatMap (markersOf xmin xmax) }

/-- The helper consumed by `normalize_input`'s `abs` rewriting: if `l`
starts with `abs` (case-insensitively) followed by optional whitespace and
`(` , return the rest after the `(`. -/
def tryAbs (l : List Char) : Option (List Char) :=
  match l with
  | a :: b :: s :: rest =>
    if a.toLower = 'a' ∧ b.toLower = 'b' ∧ s.toLower = 's' then
      match rest.dropWhile Char.isWhitespace with
      | '(' :: r => some r
      | _ => none
    else none
  | _ => none

/-- A word character for the `\b` boundary of the source regex. -/
def isWordChar (c : Char) : Bool := c.isAlphanum || c = '_'

/-- Fuel-driven scan performing `re.sub(r"\babs\s*\(", "Abs(", s,
flags=IGNORECASE)`: at every word boundary, a case-insensitive `abs ∘ ws ∘ (`
is rewritten to `Abs(`. -/
def absRwGo : ℕ → Option Char → List Char → List Char
  | 0, _, l => l
  | _ + 1, _, [] => []
  | f + 1, prev, c :: rest =>
    let boundary := match prev with | none => true | some p => !(isWordChar p)
    if boundary then
      match tryAbs (c :: rest) with
      | some r => 'A' :: 'b' :: 's' :: '(' :: absRwGo f (some '(') r
      | none => c :: absRwGo f (some c) rest
    else c :: absRwGo f (some c) rest

/-- Translation of `normalize_input` (app.py lines 18-22): strip, replace `^` by `**`,
rewrite case-insensitive `abs(` to `Abs(`. -/
def normalize_input (s : String) : String :=
  let l := stripWS s.data
  let l := replaceChar '^' ['*', '*'] l
  String.mk (absRwGo (l.length + 1) none l)

/-- The operator list of `parse_inequality` (app.py line 26), in its scan
order. -/
def opsList : List (List Char) := [['<', '='], ['>', '='], ['<'], ['>']]

/-- The operator scan of `parse_inequality` (app.py lines 27-31): the
first operator of `opsList` that occurs anywhere in the line. -/
def findOpIn (s : List Char) : Option (List Char) := opsList.find? fun op => hasSub s op

/-- Operator selection plus `line.split(op_found, 1)` (app.py line 35). -/
def opSplit (s : List Char) : Option (List Char × List Char × List Char) :=
  match findOpIn s with
  | none => none
  | some op => (splitFirst s op).map fun p => (op, p.1, p.2)

/-- Tokens of the arithmetic expression grammar accepted on each side of
the inequality. -/
inductive Tok where
  | num : ℚ → Tok
  | idx : Tok
  | idAbs : Tok
  | plus : Tok
  | minus : Tok
  | star : Tok
  | slash : Tok
  | dstar : Tok
  | lpar : Tok
  | rpar : Tok
deriving DecidableEq, Repr

/-- Tokenizer for the arithmetic grammar: integers, the variable `x`, the
function name `Abs`, and `+ - * / ** ( )`. -/
def tokenize : ℕ → List Char → Option (List Tok)
  | 0, _ => none
  | _ + 1, [] => some []
  | f + 1, c :: rest =>
    if c.isWhitespace then tokenize f rest
    else if c.isDigit then
      let sp := (c :: rest).span Char.isDigit
      match charsToNat sp.1, tokenize f sp.2 with
      | some n, some ts => some (.num (n : ℚ) :: ts)
      | _, _ => none
    else if c.isAlpha then
      let sp := (c :: rest).span Char.isAlpha
      if sp.1 = ['x'] then (tokenize f sp.2).map (.idx :: ·)
      else if sp.1 = ['A', 'b', 's'] then (tokenize f sp.2).map (.idAbs :: ·)
      else none
    else if c = '*' then
      match rest with
      | '*' :: r => (tokenize f r).map (.dstar :: ·)
      | _ => (tokenize f rest).map (.star :: ·)
    else if c = '+' then (tokenize f rest).map (.plus :: ·)
    else if c = '-' then (tokenize f rest).map (.minus :: ·)
    else if c = '/' then (tokenize f rest).map (.slash :: ·)
    else if c = '(' then (tokenize f rest).map (.lpar :: ·)
    else if c = ')' then (tokenize f rest).map (.rpar :: ·)
    else none

/-- A symbolic expression in the one real variable `x`, as built by
`sympify` from one side of an inequality. -/
inductive Expr where
  | num : ℚ → Expr
  | var : Expr
  | add : Expr → Expr → Expr
  | sub : Expr → Expr → Expr
  | mul : Expr → Expr → Expr
  | div : Expr → Expr → Expr
  | pow : Expr → ℕ → Expr
  | neg : Expr → Expr
  | abs : Expr → Expr
deriving DecidableEq, Repr

mutual

/-- Atom level of the expression grammar: literal, `x`, parenthesized
expression, or `Abs(...)`. -/
def pAtom : ℕ → List Tok → Option (Expr × List Tok)
  | 0, _ => none
  | f + 1, ts =>
    match ts with
    | .num q :: r => some (.num q, r)
    | .idx :: r => some (.var, r)
    | .lpar :: r =>
      match pExpr f r with
      | some (e, .rpar :: r') => some (e, r')
      | _ => none
    | .idAbs :: .lpar :: r =>
      match pExpr f r with
      | some (e, .rpar :: r') => some (.abs e, r')
      | _ => none
    | _ => none

/-- Power level: an atom with an optional `**` and a nonnegative integer
exponent. -/
def pPow : ℕ → List Tok → Option (Expr × List Tok)
  | 0, _ => none
  | f + 1, ts =>
    match pAtom f ts with
    | some (a, .dstar :: .num q :: r') =>
      if q.den = 1 ∧ 0 ≤ q.num then some (.pow a q.num.toNat, r') else none
    | some (a, r) => some (a, r)
    | none => none

/-- Tail of a `* /` chain (left-associative). -/
def pTermTail : ℕ → Expr → List Tok → Option (Expr × List Tok)
  | 0, _, _ => none
  | f + 1, acc, ts =>
    match ts with
    | .star :: r =>
      match pPow f r with
      | some (b, r') => pTermTail f (.mul acc b) r'
      | none => none
    | .slash :: r =>
      match pPow f r with
      | some (b, r') => pTermTail f (.div acc b) r'
      | none => none
    | _ => some (acc, ts)

/-- Term level: `pPow` combined by `*` and `/`. -/
def pTerm : ℕ → List Tok → Option (Expr × List Tok)
  | 0, _ => none
  | f + 1, ts =>
    match pTerm0 f ts with
    | some (a, r) => pTermTail f a r
    | none => none

/-- A term may begin with a unary minus. -/
def pTerm0 : ℕ → List Tok → Option (Expr × List Tok)
  | 0, _ => none
  | f + 1, ts =>
    match ts with
    | .minus :: r => (pPow f r).map fun p => (.neg p.1, p.2)
    | _ => pPow f ts

/-- Tail of a `+ -` chain (left-associative). -/
def pExprTail : ℕ → Expr → List Tok → Option (Expr × List Tok)
  | 0, _, _ => none
  | f + 1, acc, ts =>
    match ts with
    | .plus :: r =>
      match pTerm f r with
      | some (b, r') => pExprTail f (.add acc b) r'
      | none => none
    | .minus :: r =>
      match pTerm f r with
      | some (b, r') => pExprTail f (.sub acc b) r'
      | none => none
    | _ => some (acc, ts)

/-- Expression level: terms combined by `+` and `-`. -/
def pExpr : ℕ → List Tok → Option (Expr × List Tok)
  | 0, _ => none
  | f + 1, ts =>
    match pTerm f ts with
    | some (a, r) => pExprTail f a r
    | none => none

end

/-- Modelled from the spec: `sympify` on one side of the inequality — the
side "is parsed as a symbolic expression over the single real variable
`x`, with absolute-value recognized as a named function"; failure is a
`SyntaxError`. -/
def parseExpr (l : List Char) : Option Expr :=
  match tokenize (l.length + 1) l with
  | none => none
  | some ts =>
    match pExpr (ts.length * 4 + 4) ts with
    | some (e, []) => some e
    | _ => none

/-- The four comparison operators. -/
inductive CmpOp where
  | lt : CmpOp
  | le : CmpOp
  | gt : CmpOp
  | ge : CmpOp
deriving DecidableEq, Repr

/-- The operator constructor map of `parse_inequality` (app.py line 40). -/
def opCmp (op : List Char) : CmpOp :=
  if op = ['<', '='] then .le
  else if op = ['>', '='] then .ge
  else if op = ['<'] then .lt
  else .gt

/-- A relational expression, as returned by `parse_inequality`. -/
structure IneqRel where
  op : CmpOp
  lhs : Expr
  rhs : Expr
deriving DecidableEq, Repr

/-- The two failure modes of `parse_inequality`: no operator token in the
line (the `ValueError` of app.py line 33), or an unparseable side
(`sympify` failure). -/
inductive ParseErr where
  | noOp : ParseErr
  | badExpr : ParseErr
deriving DecidableEq, Repr

/-- Translation of `parse_inequality` (app.py lines 24-40): normalize, scan for the first
operator of `["<=", ">=", "<", ">"]` present in the line, split at its
first occurrence, parse both stripped sides, and build the relation. -/
def parse_inequality (line : String) : Except ParseErr IneqRel :=
  let l := (normalize_input line).data
  match opSplit l with
  | none => .error .noOp
  | some (op, a, b) =>
    match parseExpr (stripWS a), parseExpr (stripWS b) with
    | some L, some R => .ok ⟨opCmp op, L, R⟩
    | _, _ => .error .badExpr

/-- Real-number semantics of a symbolic expression at the point `x`
(division is the real field division; it is only meaningful where the
expression is defined, see `EDef`). -/
noncomputable def evalR : Expr → ℝ → ℝ
  | .num q, _ => (q : ℝ)
  | .var, x => x
  | .add a b, x => evalR a x + evalR b x
  | .sub a b, x => evalR a x - evalR b x
  | .mul a b, x => evalR a x * evalR b x
  | .div a b, x => evalR a x / evalR b x
  | .pow a n, x => evalR a x ^ n
  | .neg a, x => -evalR a x
  | .abs a, x => |evalR a x|

/-- The expression is defined at `x`: every denominator is nonzero there
(SymPy's solver excludes such points from solution sets). -/
def EDef : Expr → ℝ → Prop
  | .num _, _ => True
  | .var, _ => True
  | .add a b, x => EDef a x ∧ EDef b x
  | .sub a b, x => EDef a x ∧ EDef b x
  | .mul a b, x => EDef a x ∧ EDef b x
  | .div a b, x => EDef a x ∧ EDef b x ∧ evalR b x ≠ 0
  | .pow a _, x => EDef a x
  | .neg a, x => EDef a x
  | .abs a, x => EDef a x

/-- Truth of a comparison operator on two reals. -/
def cmpHolds : CmpOp → ℝ → ℝ → Prop
  | .lt, a, b => a < b
  | .le, a, b => a ≤ b
  | .gt, a, b => a > b
  | .ge, a, b => a ≥ b

/-- The real `x` satisfies the relation: both sides are defined at `x` and
the comparison holds. -/
def relSat (r : IneqRel) (x : ℝ) : Prop :=
  EDef r.lhs x ∧ EDef r.rhs x ∧ cmpHolds r.op (evalR r.lhs x) (evalR r.rhs x)

/-- Modelled from the spec: the contract of `solve_ineq` (app.py lines
42-45, `sp.solve_univariate_inequality` + intersection with `S.Reals` +
`sp.simplify`) — it "computes, exactly, the set of real x satisfying the
relation" with "roots of denominator always excluded", in canonical form.
`SolvesTo rel S` states that the canonical set value `S` is that result
for `rel`. -/
def SolvesTo (rel : IneqRel) (S : SymSet) : Prop :=
  (∀ x : ℝ, relSat rel x ↔ x ∈ S.toSet)

/-- Structural well-formedness of a proper canonical interval component:
nonempty, non-degenerate, infinite sides open. -/
def Ivl.okB (I : Ivl) : Bool :=
  decide (I.lo < I.hi) &&
  (match I.lo with | .ninf => I.lopen | _ => true) &&
  (match I.hi with | .pinf => I.ropen | _ => true)

/-- Consecutive interval components of a canonical union are separated. -/
def chainSepB : List Ivl → Bool
  | [] => true
  | [_] => true
  | I :: J :: rest => sepB I J && chainSepB (J :: rest)

/-- A canonical `FiniteSet` lists its points in strictly increasing
order. -/
def chainLtQ : List ℚ → Bool
  | [] => true
  | [_] => true
  | a :: b :: rest => decide (a < b) && chainLtQ (b :: rest)

/-- A canonical `FiniteSet` component is nonempty and strictly sorted. -/
def finOkB (ps : List ℚ) : Bool := !ps.isEmpty && chainLtQ ps

/-- The interval components of a list of union arguments. -/
def uIvls (args : List USet) : List Ivl :=
  args.filterMap fun u => match u with | .iv I => some I | .fin _ => none

/-- Are all union arguments intervals? -/
def allIvB (args : List USet) : Bool :=
  args.all fun u => match u with | .iv _ => true | .fin _ => false

/-- Leftover points of a canonical union lie outside every interval
component and on none of their boundaries. -/
def ptsSepB (ps : List ℚ) (Is : List Ivl) : Bool :=
  ps.all fun p => !(Is.any fun I => I.memQ p) && !(isBoundary p Is)

/-- Canonical form of a SymPy set value, as maintained by the evaluating
set constructors and `sp.simplify`: maximally merged sorted interval
components, strictly sorted leftover points, a `Union` only for two or
more components. -/
def isCanonB : SymSet → Bool
  | .empty => true
  | .one (.iv I) => I.okB
  | .one (.fin ps) => finOkB ps
  | .union (.fin ps :: rest) =>
      finOkB ps && allIvB rest && decide (1 ≤ rest.length) &&
        (uIvls rest).all Ivl.okB && chainSepB (uIvls rest) && ptsSepB ps (uIvls rest)
  | .union args =>
      decide (2 ≤ args.length) && allIvB args && (uIvls args).all Ivl.okB &&
        chainSepB (uIvls args)

/-! ## Helper lemmas on the endpoint order -/

theorem EPt.le_def (a b : EPt) : a ≤ b ↔ a.key ≤ b.key := Iff.rfl

theorem EPt.lt_def (a b : EPt) : a < b ↔ a.key < b.key := Iff.rfl

@[simp] theorem EPt.ninf_le (e : EPt) : EPt.ninf ≤ e := by
  cases e <;> rw [EPt.le_def] <;> simp [EPt.key, Prod.Lex.le_iff]

@[simp] theorem EPt.le_pinf (e : EPt) : e ≤ EPt.pinf := by
  cases e <;> rw [EPt.le_def] <;> simp [EPt.key, Prod.Lex.le_iff]

@[simp] theorem EPt.fin_le_fin {a b : ℚ} : EPt.fin a ≤ EPt.fin b ↔ a ≤ b := by
  rw [EPt.le_def]; simp [EPt.key, Prod.Lex.le_iff]

@[simp] theorem EPt.fin_lt_fin {a b : ℚ} : EPt.fin a < EPt.fin b ↔ a < b := by
  rw [EPt.lt_def]; simp [EPt.key, Prod.Lex.lt_iff]

@[simp] theorem EPt.ninf_lt_fin (q : ℚ) : EPt.ninf < EPt.fin q := by
  rw [EPt.lt_def]; simp [EPt.key, Prod.Lex.lt_iff]

@[simp] theorem EPt.ninf_lt_pinf : EPt.ninf < EPt.pinf := by
  rw [EPt.lt_def]; simp [EPt.key, Prod.Lex.lt_iff]

@[simp] theorem EPt.fin_lt_pinf (q : ℚ) : EPt.fin q < EPt.pinf := by
  rw [EPt.lt_def]; simp [EPt.key, Prod.Lex.lt_iff]

@[simp] theorem EPt.not_pinf_lt (e : EPt) : ¬ EPt.pinf < e := by
  cases e <;> rw [EPt.lt_def] <;> simp [EPt.key, Prod.Lex.lt_iff]

@[simp] theorem EPt.not_lt_ninf (e : EPt) : ¬ e < EPt.ninf := by
  cases e <;> rw [EPt.lt_def] <;> simp [EPt.key, Prod.Lex.lt_iff]

/-! ## Substring-search lemmas -/

theorem listPre_iff (pat s : List Char) : listPre pat s = true ↔ ∃ t, s = pat ++ t := by
  induction pat generalizing s with
  | nil => simp [listPre]
  | cons a as ih =>
    cases s with
    | nil => simp [listPre]
    | cons b bs =>
      simp only [listPre, Bool.and_eq_true, beq_iff_eq, ih, List.cons_append,
        List.cons.injEq]
      constructor
      · rintro ⟨rfl, t, rfl⟩; exact ⟨t, rfl, rfl⟩
      · rintro ⟨t, rfl, rfl⟩; exact ⟨rfl, t, rfl⟩

theorem listPre_drop (pat s : List Char) (h : listPre pat s = true) :
    s = pat ++ s.drop pat.length := by
  obtain ⟨t, rfl⟩ := (listPre_iff pat s).mp h
  simp

theorem splitFirst_eq : ∀ (s pat l r : List Char),
    splitFirst s pat = some (l, r) → s = l ++ pat ++ r := by
  intro s
  induction s with
  | nil =>
    intro pat l r h
    rw [splitFirst] at h
    split at h
    · next hp =>
      simp only [Option.some.injEq, Prod.mk.injEq] at h
      obtain ⟨h1, h2⟩ := h
      subst h1; subst h2
      simpa using listPre_drop pat [] hp
    · exact Option.noConfusion h
  | cons c s' ih =>
    intro pat l r h
    rw [splitFirst] at h
    split at h
    · next hp =>
      simp only [Option.some.injEq, Prod.mk.injEq] at h
      obtain ⟨h1, h2⟩ := h
      subst h1; subst h2
      simpa using listPre_drop pat (c :: s') hp
    · next hp =>
      cases hs : splitFirst s' pat with
      | none => rw [hs] at h; exact absurd h (by simp)
      | some p =>
        obtain ⟨l0, r0⟩ := p
        rw [hs] at h
        simp at h
        obtain ⟨h1, h2⟩ := h
        subst h1; subst h2
        have hrec := ih pat l0 r0 hs
        rw [List.cons_append, List.cons_append, ← hrec]

theorem splitFirst_min : ∀ (s pat l r : List Char),
    splitFirst s pat = some (l, r) →
      ∀ l' r', s = l' ++ pat ++ r' → l.length ≤ l'.length := by
  intro s
  induction s with
  | nil =>
    intro pat l r h l' r' _
    rw [splitFirst] at h
    split at h
    · simp only [Option.some.injEq, Prod.mk.injEq] at h
      rw [← h.1]; simp
    · exact Option.noConfusion h
  | cons c s' ih =>
    intro pat l r h l' r' he
    rw [splitFirst] at h
    split at h
    · simp only [Option.some.injEq, Prod.mk.injEq] at h
      rw [← h.1]; simp
    · next hp =>
      cases hs : splitFirst s' pat with
      | none => rw [hs] at h; exact absurd h (by simp)
      | some p =>
        obtain ⟨l0, r0⟩ := p
        rw [hs] at h
        simp at h
        obtain ⟨h1, _⟩ := h
        subst h1
        cases l' with
        | nil =>
          exfalso
          apply hp
          refine (listPre_iff pat (c :: s')).mpr ⟨r', ?_⟩
          simpa using he
        | cons c' l'' =>
          simp only [List.cons_append, List.cons.injEq] at he
          obtain ⟨rfl, he'⟩ := he
          simpa using ih pat l0 r0 hs l'' r' he'

theorem splitFirst_none_iff (s pat : List Char) :
    splitFirst s pat = none ↔ ¬ ∃ l r, s = l ++ pat ++ r := by
  constructor
  · intro h hex
    obtain ⟨l, r, rfl⟩ := hex
    induction l with
    | nil =>
      rw [splitFirst.eq_def] at h
      rw [if_pos ((listPre_iff pat _).mpr ⟨r, by simp⟩)] at h
      exact absurd h (by simp)
    | cons c l' ih =>
      rw [splitFirst.eq_def] at h
      split at h
      · exact absurd h (by simp)
      · have h' : Option.map (fun p => (c :: p.1, p.2)) (splitFirst (l' ++ pat ++ r) pat) =
            none := h
        cases hs : splitFirst (l' ++ pat ++ r) pat with
        | none => exact ih hs
        | some p => rw [hs] at h'; simp at h'
  · intro h
    cases hs : splitFirst s pat with
    | none => rfl
    | some p =>
      obtain ⟨l0, r0⟩ := p
      exact absurd ⟨l0, r0, splitFirst_eq s pat l0 r0 hs⟩ h

theorem hasSub_iff (s pat : List Char) :
    hasSub s pat = true ↔ ∃ l r, s = l ++ pat ++ r := by
  rw [hasSub]
  cases hs : splitFirst s pat with
  | none => simpa using (splitFirst_none_iff s pat).mp hs
  | some p =>
    obtain ⟨l0, r0⟩ := p
    simp only [Option.isSome_some, true_iff]
    exact ⟨l0, r0, splitFirst_eq s pat l0 r0 hs⟩

/-! ## Operator-scan lemmas and claims C3, C7 -/

theorem findOpIn_found (s op : List Char) (hf : findOpIn s = some op) :
    hasSub s op = true := by
  have := List.find?_some hf
  simpa using this

theorem opSplit_none_iff (s : List Char) : opSplit s = none ↔ findOpIn s = none := by
  rw [opSplit]
  cases hf : findOpIn s with
  | none => simp
  | some op =>
    simp only [iff_false]
    have hsub := findOpIn_found s op hf
    rw [hasSub] at hsub
    cases hsp : splitFirst s op with
    | none => rw [hsp] at hsub; simp at hsub
    | some p => simp

/-- C3: `parse_inequality` selects the operator by scanning for the four
tokens in the fixed order `<=, >=, <, >` (all tokens earlier in the scan
order than the selected one do not occur anywhere in the line), and splits
the line at the first occurrence of the selected operator. -/
theorem operator_scan_and_split (s op l r : List Char)
    (h : opSplit s = some (op, l, r)) :
    (∃ pre post, opsList = pre ++ op :: post ∧ ∀ op' ∈ pre, hasSub s op' = false) ∧
    s = l ++ op ++ r ∧
    (∀ l' r', s = l' ++ op ++ r' → l.length ≤ l'.length) := by
  rw [opSplit] at h
  cases hf : findOpIn s with
  | none => rw [hf] at h; exact Option.noConfusion h
  | some op0 =>
    rw [hf] at h
    have h' : Option.map (fun p => (op0, p.1, p.2)) (splitFirst s op0) = some (op, l, r) := h
    cases hsp : splitFirst s op0 with
    | none => rw [hsp] at h'; exact Option.noConfusion h'
    | some p =>
      obtain ⟨l0, r0⟩ := p
      rw [hsp] at h'
      simp at h'
      obtain ⟨hop, hl, hr⟩ := h'
      subst hop; subst hl; subst hr
      refine ⟨?_, splitFirst_eq s op0 l0 r0 hsp, splitFirst_min s op0 l0 r0 hsp⟩
      by_cases h1 : hasSub s ['<', '='] = true
      · have : op0 = ['<', '='] := by
          simp [findOpIn, opsList, List.find?, h1] at hf; exact hf.symm
        subst this
        exact ⟨[], [['>', '='], ['<'], ['>']], rfl, by simp⟩
      · rw [Bool.not_eq_true] at h1
        by_cases h2 : hasSub s ['>', '='] = true
        · have : op0 = ['>', '='] := by
            simp [findOpIn, opsList, List.find?, h1, h2] at hf; exact hf.symm
          subst this
          refine ⟨[['<', '=']], [['<'], ['>']], rfl, ?_⟩
          intro op' hm
          simp only [List.mem_singleton] at hm
          rw [hm]; exact h1
        · rw [Bool.not_eq_true] at h2
          by_cases h3 : hasSub s ['<'] = true
          · have : op0 = ['<'] := by
              simp [findOpIn, opsList, List.find?, h1, h2, h3] at hf; exact hf.symm
            subst this
            refine ⟨[['<', '='], ['>', '=']], [['>']], rfl, ?_⟩
            intro op' hm
            simp only [List.mem_cons, List.mem_singleton, List.not_mem_nil, or_false] at hm
            rcases hm with rfl | rfl
            · exact h1
            · exact h2
          · rw [Bool.not_eq_true] at h3
            by_cases h4 : hasSub s ['>'] = true
            · have : op0 = ['>'] := by
                simp [findOpIn, opsList, List.find?, h1, h2, h3, h4] at hf; exact hf.symm
              subst this
              refine ⟨[['<', '='], ['>', '='], ['<']], [], rfl, ?_⟩
              intro op' hm
              simp only [List.mem_cons, List.mem_singleton, List.not_mem_nil, or_false] at hm
              rcases hm with rfl | rfl | rfl
              · exact h1
              · exact h2
              · exact h3
            · rw [Bool.not_eq_true] at h4
              exfalso
              simp [findOpIn, opsList, List.find?, h1, h2, h3, h4] at hf

/-- Witness for C3 at the line `"a > b <= c"`: the two-character token
`<=` wins even though a bare `>` occurs earlier. -/
theorem operator_scan_and_split_witness :
    (∃ pre post, opsList = pre ++ ['<', '='] :: post ∧
      ∀ op' ∈ pre, hasSub ("a > b <= c".data) op' = false) ∧
    "a > b <= c".data = "a > b ".data ++ ['<', '='] ++ " c".data ∧
    (∀ l' r', "a > b <= c".data = l' ++ ['<', '='] ++ r' →
      "a > b ".data.length ≤ l'.length) :=
  operator_scan_and_split ("a > b <= c".data) ['<', '='] ("a > b ".data) (" c".data) (by rfl)

/-- C7: `parse_inequality` fails with the "no inequality operator" error
exactly when none of the four operator tokens occurs in the normalized
line; when one occurs, that error is never raised. -/
theorem no_operator_error_iff (line : String) :
    parse_inequality line = .error .noOp ↔
      ∀ op ∈ opsList, hasSub (normalize_input line).data op = false := by
  have hstep : parse_inequality line = .error .noOp ↔
      opSplit (normalize_input line).data = none := by
    rw [parse_inequality]
    cases ho : opSplit (normalize_input line).data with
    | none => simp
    | some t =>
      obtain ⟨op, a, b⟩ := t
      simp only [iff_false]
      cases hA : parseExpr (stripWS a) with
      | none => simp [hA]
      | some L =>
        cases hB : parseExpr (stripWS b) with
        | none => simp [hA, hB]
        | some R => simp [hA, hB]
  rw [hstep, opSplit_none_iff, findOpIn, List.find?_eq_none]
  constructor
  · intro h op hm
    simpa using h op hm
  · intro h op hm
    rw [h op hm]; simp

/-! ## Claims C10 and C2: student-set parsing and grading -/

/-- C10: a grammatically valid part with reversed bounds, like `"[3,1]"`,
parses to the empty set (SymPy's `Interval(3, 1)` is `EmptySet`), not to
`None`; it is therefore graded as a normal answer — the verdict is the
comparison with the reference solution, never the "format not understood"
outcome. -/
theorem reversed_bounds_parse_empty :
    parse_student_set ("[3,1]") = .ok (some SymSet.empty) ∧
    ∀ S : SymSet, do_check_correct ("[3,1]") S =
      .ok (some (decide (simplifySym SymSet.empty = simplifySym S))) := by
  have h : parse_student_set ("[3,1]") = .ok (some SymSet.empty) := by rfl
  refine ⟨h, fun S => ?_⟩
  rw [do_check_correct, h]

/-- C2: grading is consistent with student-set parsing.  A
whitespace-only answer parses to `None`; whenever parsing yields `None`
the verdict is the ungraded value (never `true`/`false`); and whenever
parsing yields a set `T` the verdict is exactly the canonical-form
equality between `T` and the reference solution. -/
theorem grading_consistency (text : String) (S : SymSet) :
    (stripWS text.data = [] → parse_student_set text = .ok none) ∧
    (parse_student_set text = .ok none → do_check_correct text S = .ok none) ∧
    ∀ T, parse_student_set text = .ok (some T) →
      do_check_correct text S = .ok (some (decide (simplifySym T = simplifySym S))) ∧
      (do_check_correct text S = .ok (some true) ↔ simplifySym T = simplifySym S) ∧
      (do_check_correct text S = .ok (some false) ↔ simplifySym T ≠ simplifySym S) := by
  refine ⟨?_, ?_, ?_⟩
  · intro h
    rw [parse_student_set]
    simp [h]
  · intro h
    rw [do_check_correct, h]
  · intro T h
    refine ⟨by rw [do_check_correct, h], ?_, ?_⟩ <;>
      rw [do_check_correct, h] <;>
      by_cases hc : simplifySym T = simplifySym S <;> simp [hc]

/-- Witness for C2 at a part failing the interval grammar (`"[1;2]"` has
no comma) and at the whitespace-only answer: both parse to `None` and
grade as ungraded. -/
theorem grading_consistency_witness :
    (parse_student_set ("[1;2]") = .ok none ∧ do_check_correct ("[1;2]") SymSet.empty = .ok none) ∧
    (stripWS ("  ".data) = [] ∧ parse_student_set ("  ") = .ok none) :=
  ⟨⟨by rfl, (grading_consistency ("[1;2]") SymSet.empty).2.1 (by rfl)⟩,
   ⟨by rfl, (grading_consistency ("  ") SymSet.empty).1 (by rfl)⟩⟩

/-! ## Claim C9: the number-line rendering -/

/-- C9: in the rendered number line, every finite interval endpoint inside
the viewport gets a marker, filled exactly when that side is closed and
hollow exactly when open; every marker arises that way (so clamped
infinite endpoints never get one); each interval contributes its segment
clamped to the viewport (infinite ends clamp to the edges); and the empty
set yields only the bare baseline. -/
theorem plot_number_line_spec (S : SymSet) (xmin xmax : ℚ) :
    plot_number_line SymSet.empty xmin xmax = ⟨(xmin, xmax), [], []⟩ ∧
    (∀ I ∈ plotIvls S,
      (clampQ xmin xmax I.lo, clampQ xmin xmax I.hi) ∈
        (plot_number_line S xmin xmax).segments) ∧
    (∀ I ∈ plotIvls S, ∀ q : ℚ, I.lo = .fin q → xmin ≤ q → q ≤ xmax →
      (q, !I.lopen) ∈ (plot_number_line S xmin xmax).markers) ∧
    (∀ I ∈ plotIvls S, ∀ q : ℚ, I.hi = .fin q → xmin ≤ q → q ≤ xmax →
      (q, !I.ropen) ∈ (plot_number_line S xmin xmax).markers) ∧
    (∀ m ∈ (plot_number_line S xmin xmax).markers, ∃ I ∈ plotIvls S,
      xmin ≤ m.1 ∧ m.1 ≤ xmax ∧
      ((I.lo = .fin m.1 ∧ m.2 = !I.lopen) ∨ (I.hi = .fin m.1 ∧ m.2 = !I.ropen))) ∧
    clampQ xmin xmax .ninf = xmin ∧ clampQ xmin xmax .pinf = xmax := by
  refine ⟨rfl, ?_, ?_, ?_, ?_, rfl, rfl⟩
  · intro I hI
    exact List.mem_map.mpr ⟨I, hI, rfl⟩
  · intro I hI q hq h1 h2
    refine List.mem_flatMap.mpr ⟨I, hI, ?_⟩
    rw [markersOf, hq]
    simp only [if_pos (And.intro h1 h2)]
    exact List.mem_append.mpr (Or.inl (by simp))
  · intro I hI q hq h1 h2
    refine List.mem_flatMap.mpr ⟨I, hI, ?_⟩
    rw [markersOf, hq]
    simp only [if_pos (And.intro h1 h2)]
    exact List.mem_append.mpr (Or.inr (by simp))
  · intro m hm
    obtain ⟨I, hI, hmem⟩ := List.mem_flatMap.mp hm
    refine ⟨I, hI, ?_⟩
    rw [markersOf] at hmem
    rcases List.mem_append.mp hmem with h | h
    · cases hlo : I.lo with
      | fin q =>
        rw [hlo] at h
        have h2 : m ∈ (if xmin ≤ q ∧ q ≤ xmax then [(q, !I.lopen)] else []) := h
        by_cases hr : xmin ≤ q ∧ q ≤ xmax
        · rw [if_pos hr] at h2
          simp only [List.mem_singleton] at h2
          subst h2
          exact ⟨hr.1, hr.2, Or.inl ⟨rfl, rfl⟩⟩
        · rw [if_neg hr] at h2; simp at h2
      | ninf => rw [hlo] at h; exact absurd h (List.not_mem_nil m)
      | pinf => rw [hlo] at h; exact absurd h (List.not_mem_nil m)
    · cases hhi : I.hi with
      | fin q =>
        rw [hhi] at h
        have h2 : m ∈ (if xmin ≤ q ∧ q ≤ xmax then [(q, !I.ropen)] else []) := h
        by_cases hr : xmin ≤ q ∧ q ≤ xmax
        · rw [if_pos hr] at h2
          simp only [List.mem_singleton] at h2
          subst h2
          exact ⟨hr.1, hr.2, Or.inr ⟨rfl, rfl⟩⟩
        · rw [if_neg hr] at h2; simp at h2
      | ninf => rw [hhi] at h; exact absurd h (List.not_mem_nil m)
      | pinf => rw [hhi] at h; exact absurd h (List.not_mem_nil m)

/-- Witness for C9: the half-line `(1, ∞)` on the viewport `[-10, 10]`
yields the hollow marker at `1` (its left side is open) via the theorem's
completeness conjunct. -/
theorem plot_number_line_spec_witness :
    (⟨.fin 1, .pinf, true, true⟩ : Ivl) ∈ plotIvls (SymSet.one (.iv ⟨.fin 1, .pinf, true, true⟩)) ∧
    ((1 : ℚ), false) ∈
      (plot_number_line (SymSet.one (.iv ⟨.fin 1, .pinf, true, true⟩)) (-10) 10).markers :=
  ⟨by decide,
    (plot_number_line_spec (SymSet.one (.iv ⟨.fin 1, .pinf, true, true⟩)) (-10) 10).2.2.1
      ⟨.fin 1, .pinf, true, true⟩ (by decide) 1 rfl (by norm_num) (by norm_num)⟩

/-! ## Claim C4: endpoint explanations (corrected) -/

theorem okB_lo_lt_hi {I : Ivl} (h : I.okB = true) : I.lo < I.hi := by
  rw [Ivl.okB] at h
  simp only [Bool.and_eq_true, decide_eq_true_eq] at h
  exact h.1.1

theorem sepB_lo_lt {I J : Ivl} (hs : sepB I J = true) (hok : I.okB = true) :
    I.lo < J.lo := by
  rw [sepB] at hs
  simp only [Bool.or_eq_true, Bool.and_eq_true, decide_eq_true_eq] at hs
  have h1 : I.lo < I.hi := okB_lo_lt_hi hok
  rcases hs with h | ⟨⟨h, _⟩, _⟩
  · exact lt_trans h1 h
  · exact h ▸ h1

theorem chainSepB_lo_chain : ∀ l : List Ivl, chainSepB l = true →
    l.all Ivl.okB = true → l.Chain' fun I J => I.lo < J.lo := by
  intro l
  induction l with
  | nil => intro _ _; exact List.chain'_nil
  | cons I t ih =>
    intro hc hok
    cases t with
    | nil => simp
    | cons J t' =>
      rw [chainSepB] at hc
      simp only [Bool.and_eq_true] at hc
      simp only [List.all_cons, Bool.and_eq_true] at hok
      refine List.chain'_cons.mpr ⟨sepB_lo_lt hc.1 hok.1, ?_⟩
      exact ih hc.2 (by simp [hok.2.1, hok.2.2])

theorem ivls_union_eq (args : List USet) : (SymSet.union args).ivls = uIvls args := rfl

/-- C4 counterexample: the nonempty point set `{0}` — the very value the
solver returns for `x**2 <= 0` — makes `endpoint_explanation` return
`None` although the set is not empty, refuting "returns null if and only
if the input solution set is the empty set". -/
theorem endpoint_explanation_counterexample :
    endpoint_explanation (SymSet.one (.fin [0])) = none ∧
    (0 : ℝ) ∈ (SymSet.one (.fin [0])).toSet ∧
    SymSet.one (.fin [0]) ≠ SymSet.empty ∧
    isCanonB (SymSet.one (.fin [0])) = true := by
  refine ⟨rfl, ?_, by decide, by decide⟩
  exact ⟨0, by simp⟩

/-- C4 amended: `endpoint_explanation` returns `None` exactly when the
set value has no `Interval` component (so for the empty set, but also
for bare point sets); otherwise it returns exactly one description per
interval component, and on canonical values those intervals appear in
strictly increasing start order. -/
theorem endpoint_explanation_spec (S : SymSet) :
    (endpoint_explanation S = none ↔ S.ivls = []) ∧
    (∀ L, endpoint_explanation S = some L → L = S.ivls.map describeIvl) ∧
    (isCanonB S = true → S.ivls.Chain' fun I J => I.lo < J.lo) := by
  refine ⟨?_, ?_, ?_⟩
  · rw [endpoint_explanation]
    by_cases h : S.ivls = [] <;> simp [h]
  · intro L hL
    rw [endpoint_explanation] at hL
    by_cases h : S.ivls = []
    · rw [if_pos h] at hL; exact Option.noConfusion hL
    · rw [if_neg h] at hL
      simpa using hL.symm
  · intro hc
    cases S with
    | empty => exact List.chain'_nil
    | one u =>
      cases u with
      | iv I => simp [SymSet.ivls]
      | fin ps => exact List.chain'_nil
    | union args =>
      cases args with
      | nil => simp [SymSet.ivls]
      | cons a rest =>
        cases a with
        | fin ps =>
          simp only [isCanonB, Bool.and_eq_true] at hc
          obtain ⟨⟨⟨⟨⟨h1, h2⟩, h3⟩, h4⟩, h5⟩, h6⟩ := hc
          rw [ivls_union_eq]
          have huv : uIvls (USet.fin ps :: rest) = uIvls rest := rfl
          rw [huv]
          exact chainSepB_lo_chain _ h5 h4
        | iv I =>
          simp only [isCanonB, Bool.and_eq_true] at hc
          obtain ⟨⟨⟨h1, h2⟩, h3⟩, h4⟩ := hc
          rw [ivls_union_eq]
          exact chainSepB_lo_chain _ h4 h3

/-- Witness for C4's amended claim on the two-interval canonical set
`(-∞, -2) ∪ [1, ∞)`. -/
theorem endpoint_explanation_spec_witness :
    (endpoint_explanation (SymSet.union [.iv ⟨.ninf, .fin (-2), true, true⟩,
        .iv ⟨.fin 1, .pinf, false, true⟩]) ≠ none ∧
      (SymSet.union [.iv ⟨.ninf, .fin (-2), true, true⟩,
        .iv ⟨.fin 1, .pinf, false, true⟩]).ivls ≠ []) ∧
    (∀ L, endpoint_explanation (SymSet.union [.iv ⟨.ninf, .fin (-2), true, true⟩,
        .iv ⟨.fin 1, .pinf, false, true⟩]) = some L →
      L = (SymSet.union [.iv ⟨.ninf, .fin (-2), true, true⟩,
        .iv ⟨.fin 1, .pinf, false, true⟩]).ivls.map describeIvl) ∧
    (SymSet.union [.iv ⟨.ninf, .fin (-2), true, true⟩,
        .iv ⟨.fin 1, .pinf, false, true⟩]).ivls.Chain' (fun I J => I.lo < J.lo) := by
  have h := endpoint_explanation_spec (SymSet.union [.iv ⟨.ninf, .fin (-2), true, true⟩,
    .iv ⟨.fin 1, .pinf, false, true⟩])
  exact ⟨⟨fun hnone => absurd (h.1.mp hnone) (by decide), by decide⟩,
    h.2.1, h.2.2 (by decide)⟩

/-! ## Claims C6 and C1: concrete solves -/

/-- C6: the composition of `parse_inequality` and the solver on
`"-3*x + 6 > 0"` gives exactly the open half-line `(-∞, 2)`: the relation
parses to `-3*x + 6 > 0`, the claimed set is canonical, and its members
are exactly the reals satisfying the relation (the direction flips when
the negative leading coefficient is eliminated). -/
theorem solve_neg_linear :
    parse_inequality ("-3*x + 6 > 0") =
      .ok ⟨.gt, .add (.mul (.neg (.num 3)) .var) (.num 6), .num 0⟩ ∧
    isCanonB (SymSet.one (.iv ⟨.ninf, .fin 2, true, true⟩)) = true ∧
    SolvesTo ⟨.gt, .add (.mul (.neg (.num 3)) .var) (.num 6), .num 0⟩
      (SymSet.one (.iv ⟨.ninf, .fin 2, true, true⟩)) := by
  refine ⟨by rfl, by decide, ?_⟩
  intro x
  simp only [relSat, EDef, cmpHolds, evalR, SymSet.toSet, USet.memR, Ivl.memR,
    loHolds, hiHolds, Set.mem_setOf_eq, and_true, true_and, gt_iff_lt]
  push_cast
  constructor
  · intro h; linarith
  · intro h; linarith

/-- C1: the composition of `parse_inequality` and the solver on
`"(x-1)/(x+2) >= 0"` gives exactly `(-∞, -2) ∪ [1, ∞)`: the relation
parses to `(x-1)/(x+2) >= 0`, the claimed set is canonical, its members
are exactly the reals where the quotient is defined and nonnegative
(denominator root excluded despite the non-strict operator), `1` belongs
to it and `-2` does not. -/
theorem solve_rational_inequality :
    parse_inequality ("(x-1)/(x+2) >= 0") =
      .ok ⟨.ge, .div (.sub .var (.num 1)) (.add .var (.num 2)), .num 0⟩ ∧
    isCanonB (SymSet.union [.iv ⟨.ninf, .fin (-2), true, true⟩,
      .iv ⟨.fin 1, .pinf, false, true⟩]) = true ∧
    SolvesTo ⟨.ge, .div (.sub .var (.num 1)) (.add .var (.num 2)), .num 0⟩
      (SymSet.union [.iv ⟨.ninf, .fin (-2), true, true⟩,
        .iv ⟨.fin 1, .pinf, false, true⟩]) ∧
    (1 : ℝ) ∈ (SymSet.union [.iv ⟨.ninf, .fin (-2), true, true⟩,
      .iv ⟨.fin 1, .pinf, false, true⟩]).toSet ∧
    (-2 : ℝ) ∉ (SymSet.union [.iv ⟨.ninf, .fin (-2), true, true⟩,
      .iv ⟨.fin 1, .pinf, false, true⟩]).toSet := by
  refine ⟨by rfl, by decide, ?_, ?_, ?_⟩
  · intro x
    simp only [relSat, EDef, cmpHolds, evalR, SymSet.toSet, USet.memR, Ivl.memR,
      loHolds, hiHolds, Set.mem_setOf_eq, List.mem_cons, List.not_mem_nil, or_false,
      exists_eq_or_imp, exists_eq_left, and_true, true_and, ge_iff_le]
    push_cast
    constructor
    · rintro ⟨hne, hdiv⟩
      rcases div_nonneg_iff.mp hdiv with ⟨h1, h2⟩ | ⟨h1, h2⟩
      · right; linarith
      · left
        have hlt : x + 2 < 0 := lt_of_le_of_ne h2 hne
        linarith
    · rintro (h | h)
      · refine ⟨by intro hc; linarith, ?_⟩
        apply div_nonneg_iff.mpr
        right
        constructor <;> linarith
      · refine ⟨by intro hc; linarith, ?_⟩
        apply div_nonneg_iff.mpr
        left
        constructor <;> linarith
  · simp only [SymSet.toSet, USet.memR, Ivl.memR, loHolds, hiHolds, Set.mem_setOf_eq,
      List.mem_cons, List.not_mem_nil, or_false, exists_eq_or_imp, exists_eq_left,
      and_true, true_and]
    push_cast
    norm_num
  · simp only [SymSet.toSet, USet.memR, Ivl.memR, loHolds, hiHolds, Set.mem_setOf_eq,
      List.mem_cons, List.not_mem_nil, or_false, exists_eq_or_imp, exists_eq_left,
      and_true, true_and]
    push_cast
    norm_num

/-! ## Claim C8: commutativity of the combined intersection -/

theorem rawInter_comm (I J : Ivl) : rawInter I J = rawInter J I := by
  rw [rawInter, rawInter]
  rcases lt_trichotomy I.lo J.lo with h | h | h <;>
    rcases lt_trichotomy I.hi J.hi with h' | h' | h' <;>
      simp_all [lt_asymm, lt_irrefl, Bool.or_comm, le_of_lt]

theorem flatMap_append_perm {α β : Type} (l : List α) (f g : α → List β) :
    (l.flatMap fun a => f a ++ g a).Perm (l.flatMap f ++ l.flatMap g) := by
  induction l with
  | nil => simp
  | cons a t ih =>
    simp only [List.flatMap_cons]
    refine ((ih.append_left (f a ++ g a)).trans ?_)
    rw [List.append_assoc, List.append_assoc]
    exact (List.perm_append_comm_assoc _ _ _).append_left (f a)

theorem flatMap_singleton_eq_map {β γ : Type} (bs : List β) (g : β → γ) :
    (bs.flatMap fun b => [g b]) = bs.map g := by
  induction bs with
  | nil => rfl
  | cons b bs' ihb => simp [ihb]

theorem flatMap_map_swap_perm {α β γ : Type} (as : List α) (bs : List β) (f : α → β → γ) :
    (as.flatMap fun a => bs.map (f a)).Perm (bs.flatMap fun b => as.map fun a => f a b) := by
  induction as with
  | nil => simp
  | cons a t ih =>
    simp only [List.flatMap_cons, List.map_cons]
    have h1 : (bs.flatMap fun b => f a b :: t.map fun a' => f a' b)
        = bs.flatMap fun b => [f a b] ++ t.map fun a' => f a' b := by simp
    rw [h1]
    refine ((flatMap_append_perm bs _ _).trans ?_).symm
    rw [flatMap_singleton_eq_map bs (f a)]
    exact ih.symm.append_left _

theorem insertionSort_eq_of_perm {α : Type} [LinearOrder α] {l l' : List α}
    (h : l.Perm l') :
    List.insertionSort (· ≤ ·) l = List.insertionSort (· ≤ ·) l' :=
  List.eq_of_perm_of_sorted
    ((List.perm_insertionSort _ l).trans (h.trans (List.perm_insertionSort _ l').symm))
    (List.sorted_insertionSort _ l) (List.sorted_insertionSort _ l')

theorem canonize_perm {raw raw' : List Ivl} {ps ps' : List ℚ}
    (h1 : raw.Perm raw') (h2 : ps.Perm ps') : canonize raw ps = canonize raw' ps' := by
  have e1 : List.insertionSort (· ≤ ·) (raw.filterMap normIv) =
      List.insertionSort (· ≤ ·) (raw'.filterMap normIv) :=
    insertionSort_eq_of_perm (h1.filterMap normIv)
  have e2 : List.insertionSort (· ≤ ·) (ps ++ raw.filterMap degPt) =
      List.insertionSort (· ≤ ·) (ps' ++ raw'.filterMap degPt) :=
    insertionSort_eq_of_perm (h2.append (h1.filterMap degPt))
  rw [canonize, canonize, e1, e2]

theorem interSym_comm (A B : SymSet) : interSym A B = interSym B A := by
  rw [interSym, interSym]
  apply canonize_perm
  · have hswap := flatMap_map_swap_perm A.ivls B.ivls rawInter
    have hfun : (fun b => A.ivls.map fun a => rawInter a b)
        = fun b => A.ivls.map (rawInter b) := by
      funext b
      exact List.map_congr_left fun a _ => rawInter_comm a b
    rw [hfun] at hswap
    exact hswap
  · exact List.perm_append_comm

/-- C8: intersecting the solution sequence `[A, B]` and the sequence
`[B, A]` with the fold of the explore tab yields the same canonical set
value. -/
theorem intersection_commutative (A B : SymSet) :
    combinedSolution A [B] = combinedSolution B [A] := by
  show simplifySym (interSym A B) = simplifySym (interSym B A)
  rw [interSym_comm]

/-! ## Numeral formatting/parsing round-trip -/

theorem digitChar_isDigit {d : ℕ} (h : d < 10) : (digitChar d).isDigit = true := by
  interval_cases d <;> decide

theorem digitVal_digitChar {d : ℕ} (h : d < 10) : digitVal (digitChar d) = d := by
  interval_cases d <;> decide

theorem digitsFuel_eq (f n : ℕ) (h : n ≤ f) : digitsFuel f n = Nat.digits 10 n := by
  induction f generalizing n with
  | zero =>
    interval_cases n
    simp [digitsFuel]
  | succ f ih =>
    rw [digitsFuel]
    by_cases hn : n = 0
    · rw [if_pos hn, hn]
      simp
    · rw [if_neg hn]
      rw [Nat.digits_def' (by norm_num : (1:ℕ) < 10) (Nat.pos_of_ne_zero hn)]
      rw [ih (n / 10) (by omega)]

theorem natToChars_spec (n : ℕ) :
    natToChars n = if n = 0 then ['0'] else ((Nat.digits 10 n).map digitChar).reverse := by
  rw [natToChars]
  by_cases hn : n = 0
  · rw [if_pos hn, if_pos hn]
  · rw [if_neg hn, if_neg hn, digitsFuel_eq n n (le_refl n)]

theorem natToChars_ne_nil (n : ℕ) : natToChars n ≠ [] := by
  rw [natToChars_spec]
  by_cases h : n = 0
  · simp [h]
  · rw [if_neg h]
    simp [Nat.digits_ne_nil_iff_ne_zero.mpr h]

theorem natToChars_digits (n : ℕ) : ∀ c ∈ natToChars n, c.isDigit = true := by
  rw [natToChars_spec]
  by_cases h : n = 0
  · simp only [if_pos h]
    intro c hc
    simp only [List.mem_singleton] at hc
    subst hc; decide
  · rw [if_neg h]
    intro c hc
    rw [List.mem_reverse, List.mem_map] at hc
    obtain ⟨d, hd, rfl⟩ := hc
    exact digitChar_isDigit (Nat.digits_lt_base (by norm_num) hd)

theorem charsToNat_natToChars (n : ℕ) : charsToNat (natToChars n) = some n := by
  rw [charsToNat, if_pos ⟨natToChars_ne_nil n, List.all_eq_true.mpr fun c hc =>
    natToChars_digits n c hc⟩]
  congr 1
  rw [natToChars_spec]
  by_cases h : n = 0
  · simp [h, digitVal, Nat.ofDigits]
  · rw [if_neg h]
    rw [List.map_reverse, List.reverse_reverse, List.map_map]
    have hid : ∀ l : List ℕ, (∀ d ∈ l, d < 10) →
        List.map (digitVal ∘ digitChar) l = l := by
      intro l hl
      induction l with
      | nil => rfl
      | cons d t ih =>
        simp only [List.map_cons, Function.comp_apply,
          digitVal_digitChar (hl d (by simp)), List.cons.injEq, true_and]
        exact ih fun d' hd' => hl d' (by simp [hd'])
    rw [hid _ fun d hd => Nat.digits_lt_base (by norm_num) hd, Nat.ofDigits_digits]

theorem fmtQ_chars (q : ℚ) : ∀ c ∈ fmtQ q, c.isDigit = true ∨ c = '-' ∨ c = '/' := by
  intro c hc
  rw [fmtQ] at hc
  simp only [List.append_assoc, List.mem_append] at hc
  rcases hc with h | h | h
  · by_cases hq : q < 0
    · rw [if_pos hq] at h
      simp only [List.mem_singleton] at h
      exact Or.inr (Or.inl h)
    · rw [if_neg hq] at h
      simp at h
  · exact Or.inl (natToChars_digits _ c h)
  · by_cases hd : q.den = 1
    · rw [if_pos hd] at h
      simp at h
    · rw [if_neg hd] at h
      rcases List.mem_cons.mp h with h' | h'
      · exact Or.inr (Or.inr h')
      · exact Or.inl (natToChars_digits _ c h')

theorem fmtQ_ne_nil (q : ℚ) : fmtQ q ≠ [] := by
  rw [fmtQ]
  intro h
  rcases List.append_eq_nil.mp h with ⟨h1, h2⟩
  rcases List.append_eq_nil.mp h1 with ⟨_, h3⟩
  exact natToChars_ne_nil _ h3

theorem splitFirst_no_occurrence (l : List Char) (c : Char) (h : c ∉ l) :
    splitFirst l [c] = none := by
  rw [splitFirst_none_iff]
  rintro ⟨a, b, rfl⟩
  exact h (by simp)

theorem splitFirst_single (a b : List Char) (c : Char) (h : c ∉ a) :
    splitFirst (a ++ c :: b) [c] = some (a, b) := by
  induction a with
  | nil =>
    rw [List.nil_append, splitFirst.eq_def]
    rw [if_pos (by simp [listPre])]
    simp [listPre]
  | cons x a' ih =>
    rw [List.cons_append, splitFirst.eq_def]
    rw [if_neg ?hneg]
    case hneg =>
      intro hp
      simp only [listPre, Bool.and_eq_true, beq_iff_eq] at hp
      exact h (by simp [hp.1.symm])
    have hrec := ih fun hm => h (List.mem_cons_of_mem x hm)
    show Option.map _ (splitFirst (a' ++ c :: b) [c]) = _
    rw [hrec]
    rfl

theorem numParsePos_fmtQ {q : ℚ} (hq : 0 ≤ q) : numParsePos (fmtQ q) = some (.fin q) := by
  have hsign : ¬ q < 0 := not_lt.mpr hq
  have hne_oo : fmtQ q ≠ ['o', 'o'] := by
    intro heq
    have hmem : 'o' ∈ fmtQ q := by rw [heq]; simp
    rcases fmtQ_chars q 'o' hmem with h | h | h <;> simp at h
  rw [numParsePos, if_neg hne_oo]
  rw [fmtQ, if_neg hsign, List.nil_append]
  by_cases hd : q.den = 1
  · rw [if_pos hd, List.append_nil]
    rw [splitFirst_no_occurrence _ _ ?hslash]
    case hslash =>
      intro hm
      have := natToChars_digits q.num.natAbs '/' hm
      simp at this
    have hnum : ((q.num.natAbs : ℕ) : ℚ) = q := by
      have h1 : (q.num.natAbs : ℤ) = q.num := Int.natAbs_of_nonneg (Rat.num_nonneg.mpr hq)
      have h2 : ((q.num : ℤ) : ℚ) = q := by
        conv_rhs => rw [← Rat.num_div_den q]
        rw [hd]; push_cast; simp
      calc ((q.num.natAbs : ℕ) : ℚ) = ((q.num.natAbs : ℤ) : ℚ) := by rw [Int.cast_natCast]
        _ = ((q.num : ℤ) : ℚ) := by rw [h1]
        _ = q := h2
    simp [charsToNat_natToChars, hnum]
  · rw [if_neg hd]
    rw [splitFirst_single _ _ _ ?hslash2]
    case hslash2 =>
      intro hm
      have := natToChars_digits q.num.natAbs '/' hm
      simp at this
    have hval : ((q.num.natAbs : ℕ) : ℚ) / ((q.den : ℕ) : ℚ) = q := by
      have h1 : (q.num.natAbs : ℤ) = q.num := Int.natAbs_of_nonneg (Rat.num_nonneg.mpr hq)
      have h2 : ((q.num.natAbs : ℕ) : ℚ) = ((q.num : ℤ) : ℚ) := by
        calc ((q.num.natAbs : ℕ) : ℚ) = ((q.num.natAbs : ℤ) : ℚ) := by rw [Int.cast_natCast]
          _ = ((q.num : ℤ) : ℚ) := by rw [h1]
      rw [h2]
      exact Rat.num_div_den q
    simp [charsToNat_natToChars, q.den_nz, hval]

theorem fmtQ_neg (q : ℚ) (hq : q < 0) : fmtQ q = '-' :: fmtQ (-q) := by
  have h2 : ¬ (-q) < 0 := by linarith
  have h3 : (-q).num.natAbs = q.num.natAbs := by rw [Rat.neg_num]; exact Int.natAbs_neg _
  have h4 : (-q).den = q.den := Rat.neg_den q
  rw [fmtQ, fmtQ, if_pos hq, if_neg h2, h3, h4]
  simp

theorem numParse_fmtQ (q : ℚ) : numParse (fmtQ q) = some (.fin q) := by
  by_cases hq : q < 0
  · rw [fmtQ_neg q hq]
    rw [numParse, if_pos rfl]
    rw [numParsePos_fmtQ (by linarith : (0:ℚ) ≤ -q)]
    simp [negEP]
  · have hnn := natToChars_ne_nil q.num.natAbs
    obtain ⟨c, t, hct⟩ := List.exists_cons_of_ne_nil hnn
    have hcd : c.isDigit = true := natToChars_digits _ c (by rw [hct]; simp)
    have hcne : c ≠ '-' := by
      intro h; rw [h] at hcd; exact absurd hcd (by decide)
    have hfmt : fmtQ q = c :: (t ++ (if q.den = 1 then [] else '/' :: natToChars q.den)) := by
      rw [fmtQ, if_neg hq, List.nil_append, hct, List.cons_append]
    have hfmt2 : natToChars q.num.natAbs ++
        (if q.den = 1 then [] else '/' :: natToChars q.den) = fmtQ q := by
      rw [fmtQ, if_neg hq, List.nil_append]
    rw [hfmt, numParse, if_neg hcne]
    rw [← List.cons_append, ← hct, hfmt2]
    exact numParsePos_fmtQ (not_lt.mp hq)

theorem replaceChar_id (c : Char) (rep l : List Char) (h : c ∉ l) :
    replaceChar c rep l = l := by
  induction l with
  | nil => rfl
  | cons a t ih =>
    simp only [replaceChar, List.flatMap_cons]
    rw [if_neg (by rintro rfl; exact h (by simp))]
    simp only [List.cons_append, List.nil_append]
    have := ih fun hm => h (by simp [hm])
    rw [replaceChar] at this
    rw [this]

theorem postChars_append (a b : List Char) :
    postChars (a ++ b) = postChars a ++ postChars b := by
  simp [postChars, replaceChar, List.flatMap_append]

theorem postChars_fmtQ (q : ℚ) : postChars (fmtQ q) = fmtQ q := by
  have h1 : '∞' ∉ fmtQ q := by
    intro hm
    rcases fmtQ_chars q '∞' hm with h | h | h <;> exact absurd h (by decide)
  have h2 : ' ' ∉ fmtQ q := by
    intro hm
    rcases fmtQ_chars q ' ' hm with h | h | h <;> exact absurd h (by decide)
  rw [postChars, replaceChar_id _ _ _ h1, replaceChar_id _ _ _ h2]

theorem numParse_postChars_fmtEP (e : EPt) : numParse (postChars (fmtEP e)) = some e := by
  cases e with
  | ninf => rfl
  | pinf => rfl
  | fin q =>
    rw [fmtEP, postChars_fmtQ]
    exact numParse_fmtQ q

theorem postChars_fmtEP_chars (e : EPt) :
    ∀ c ∈ postChars (fmtEP e), c.isDigit = true ∨ c = '-' ∨ c = '/' ∨ c = 'o' := by
  cases e with
  | ninf =>
    intro c hc
    have : c ∈ ['-', 'o', 'o'] := hc
    simp only [List.mem_cons, List.not_mem_nil, or_false] at this
    rcases this with rfl | rfl | rfl <;> simp
  | pinf =>
    intro c hc
    have : c ∈ ['o', 'o'] := hc
    simp only [List.mem_cons, List.not_mem_nil, or_false] at this
    rcases this with rfl | rfl <;> simp
  | fin q =>
    rw [fmtEP, postChars_fmtQ]
    intro c hc
    rcases fmtQ_chars q c hc with h | h | h <;> tauto

theorem postChars_fmtEP_ne_nil (e : EPt) : postChars (fmtEP e) ≠ [] := by
  cases e with
  | ninf => simp [postChars, fmtEP, replaceChar]
  | pinf => simp [postChars, fmtEP, replaceChar]
  | fin q =>
    rw [fmtEP, postChars_fmtQ]
    exact fmtQ_ne_nil q

/-! ## Splitting on the union marker -/

theorem splitChar_ne_nil (c : Char) (l : List Char) : splitChar c l ≠ [] := by
  cases l with
  | nil => simp [splitChar]
  | cons a t =>
    rw [splitChar]
    cases h : splitChar c t with
    | nil => simp
    | cons h' t' => by_cases hac : a = c <;> simp [hac]

theorem splitChar_no_sep (c : Char) (l : List Char) (h : c ∉ l) : splitChar c l = [l] := by
  induction l with
  | nil => rfl
  | cons a t ih =>
    have hac : a ≠ c := fun hac => h (by simp [hac])
    rw [splitChar, ih fun hm => h (List.mem_cons_of_mem a hm)]
    show (if a = c then [] :: t :: [] else (a :: t) :: []) = [a :: t]
    rw [if_neg hac]

theorem splitChar_sep (c : Char) (q r : List Char) (h : c ∉ q) :
    splitChar c (q ++ c :: r) = q :: splitChar c r := by
  induction q with
  | nil =>
    rw [List.nil_append, splitChar]
    cases hs : splitChar c r with
    | nil => exact absurd hs (splitChar_ne_nil c r)
    | cons h' t' =>
      show (if c = c then [] :: h' :: t' else (c :: h') :: t') = [] :: h' :: t'
      rw [if_pos rfl]
  | cons a q' ih =>
    have hac : a ≠ c := fun hac => h (by simp [hac])
    rw [List.cons_append, splitChar, ih fun hm => h (List.mem_cons_of_mem a hm)]
    show (if a = c then [] :: q' :: splitChar c r else (a :: q') :: splitChar c r) =
      (a :: q') :: splitChar c r
    rw [if_neg hac]

theorem splitChar_intercalate (c : Char) : ∀ (parts : List (List Char)), parts ≠ [] →
    (∀ p ∈ parts, c ∉ p) → splitChar c (listIntercalate [c] parts) = parts := by
  intro parts
  induction parts with
  | nil => intro h _; exact absurd rfl h
  | cons p rest ih =>
    intro _ hfree
    cases rest with
    | nil =>
      rw [listIntercalate]
      exact splitChar_no_sep c p (hfree p (by simp))
    | cons p' rest' =>
      rw [listIntercalate]
      have : p ++ [c] ++ listIntercalate [c] (p' :: rest') =
          p ++ c :: listIntercalate [c] (p' :: rest') := by simp
      rw [this, splitChar_sep c p _ (hfree p (by simp))]
      rw [ih (by simp) fun p'' hm => hfree p'' (List.mem_cons_of_mem p hm)]

theorem postChars_intercalate (parts : List (List Char)) :
    postChars (listIntercalate [' ', 'U', ' '] parts) =
      listIntercalate ['U'] (parts.map postChars) := by
  induction parts with
  | nil => rfl
  | cons p rest ih =>
    cases rest with
    | nil => rfl
    | cons p' rest' =>
      rw [listIntercalate, postChars_append, postChars_append, ih]
      rfl

/-! ## Matching one rendered interval against the part regex -/

theorem matchPart_eval (lbr rbr : Char) (rest a b : List Char)
    (h1 : lbr = '(' ∨ lbr = '[') (hlast : rest.getLast? = some rbr)
    (h2 : rbr = ')' ∨ rbr = ']') (hsplit : splitFirst rest.dropLast [','] = some (a, b))
    (ha : a ≠ []) (hb : b ≠ [])
    (hall : (b.all fun c => decide (c ≠ ')' ∧ c ≠ ']')) = true) :
    matchPart (lbr :: rest) = some (decide (lbr = '('), a, b, decide (rbr = ')')) := by
  rw [matchPart, if_pos h1, hlast]
  show (if rbr = ')' ∨ rbr = ']' then
      match splitFirst rest.dropLast [','] with
      | none => none
      | some (a, b) =>
        if a ≠ [] ∧ b ≠ [] ∧ b.all (fun c => c ≠ ')' ∧ c ≠ ']') then
          some (decide (lbr = '('), a, b, decide (rbr = ')'))
        else none
    else none) = _
  rw [if_pos h2, hsplit]
  show (if a ≠ [] ∧ b ≠ [] ∧ b.all (fun c => c ≠ ')' ∧ c ≠ ']') then
      some (decide (lbr = '('), a, b, decide (rbr = ')'))
    else none) = _
  rw [if_pos ⟨ha, hb, hall⟩]

theorem matchPart_fmtIvl (I : Ivl) :
    matchPart (postChars (fmtIvlChars I)) =
      some (I.lopen, postChars (fmtEP I.lo), postChars (fmtEP I.hi), I.ropen) := by
  have hpLo := postChars_fmtEP_ne_nil I.lo
  have hpHi := postChars_fmtEP_ne_nil I.hi
  have hcomma : ',' ∉ postChars (fmtEP I.lo) := by
    intro hm
    rcases postChars_fmtEP_chars I.lo ',' hm with h | h | h | h <;> exact absurd h (by decide)
  have hbr : ((postChars (fmtEP I.hi)).all fun ch => decide (ch ≠ ')' ∧ ch ≠ ']')) = true := by
    rw [List.all_eq_true]
    intro ch hm
    rcases postChars_fmtEP_chars I.hi ch hm with h | h | h | h
    · simp only [decide_eq_true_eq]
      constructor <;> (rintro rfl; exact absurd h (by decide))
    all_goals (subst h; decide)
  have hbrL : ∀ b : Bool, postChars (if b then ['('] else ['[']) =
      [if b then '(' else '['] := by intro b; cases b <;> rfl
  have hbrR : ∀ b : Bool, postChars (if b then [')'] else [']']) =
      [if b then ')' else ']'] := by intro b; cases b <;> rfl
  have hsep : postChars [',', ' '] = [','] := rfl
  have hform : postChars (fmtIvlChars I) =
      (if I.lopen then '(' else '[') ::
        ((postChars (fmtEP I.lo) ++ ',' :: postChars (fmtEP I.hi)) ++
          [if I.ropen then ')' else ']']) := by
    rw [fmtIvlChars, postChars_append, postChars_append, postChars_append, postChars_append,
      hbrL, hsep, hbrR]
    cases I.lopen <;> cases I.ropen <;> simp [List.append_assoc]
  rw [hform]
  rw [matchPart_eval _ _ _ _ _
    (by cases I.lopen <;> simp)
    (List.getLast?_concat _)
    (by cases I.ropen <;> simp)
    (by rw [List.dropLast_concat]; exact splitFirst_single _ _ _ hcomma)
    hpLo hpHi hbr]
  cases I.lopen <;> cases I.ropen <;> simp

theorem collectParts_fmtIvls (Is : List Ivl) :
    collectParts (Is.map fun I => postChars (fmtIvlChars I)) = .ok (some Is) := by
  induction Is with
  | nil => rfl
  | cons I t ih =>
    rw [List.map_cons, collectParts, matchPart_fmtIvl I]
    show (match numParse (postChars (fmtEP I.lo)), numParse (postChars (fmtEP I.hi)) with
      | some ea, some eb =>
        (match collectParts (t.map fun I => postChars (fmtIvlChars I)) with
        | Except.ok (some ivs) => Except.ok (some (⟨ea, eb, I.lopen, I.ropen⟩ :: ivs))
        | r => r)
      | _, _ => (Except.error () : Except Unit (Option (List Ivl)))) =
      Except.ok (some (I :: t))
    rw [numParse_postChars_fmtEP I.lo, numParse_postChars_fmtEP I.hi]
    show (match collectParts (t.map fun I => postChars (fmtIvlChars I)) with
      | Except.ok (some ivs) => Except.ok (some (⟨I.lo, I.hi, I.lopen, I.ropen⟩ :: ivs))
      | r => r) = Except.ok (some (I :: t))
    rw [ih]

/-! ## Canonical fixpoint of `canonize` on proper interval lists -/

theorem filterMap_some_id {α : Type} (f : α → Option α) :
    ∀ l : List α, (∀ x ∈ l, f x = some x) → l.filterMap f = l := by
  intro l
  induction l with
  | nil => intro _; rfl
  | cons a t ih =>
    intro h
    rw [List.filterMap_cons, h a (by simp)]
    rw [ih fun x hx => h x (List.mem_cons_of_mem a hx)]

theorem filterMap_none_nil {α β : Type} (f : α → Option β) :
    ∀ l : List α, (∀ x ∈ l, f x = none) → l.filterMap f = [] := by
  intro l
  induction l with
  | nil => intro _; rfl
  | cons a t ih =>
    intro h
    rw [List.filterMap_cons, h a (by simp)]
    exact ih fun x hx => h x (List.mem_cons_of_mem a hx)

theorem normIv_ok {I : Ivl} (h : I.okB = true) : normIv I = some I := by
  rw [Ivl.okB] at h
  simp only [Bool.and_eq_true, decide_eq_true_eq] at h
  obtain ⟨⟨hlt, hlo⟩, hhi⟩ := h
  rw [normIv, if_pos hlt]
  congr 1
  have h1 : (if I.lo = .ninf then true else I.lopen) = I.lopen := by
    cases hc : I.lo with
    | ninf =>
      rw [hc] at hlo
      have hlo' : I.lopen = true := hlo
      rw [if_pos rfl, hlo']
    | fin q => rw [if_neg (by simp)]
    | pinf => rw [if_neg (by simp)]
  have h2 : (if I.hi = .pinf then true else I.ropen) = I.ropen := by
    cases hc : I.hi with
    | pinf =>
      rw [hc] at hhi
      have hhi' : I.ropen = true := hhi
      rw [if_pos rfl, hhi']
    | fin q => rw [if_neg (by simp)]
    | ninf => rw [if_neg (by simp)]
  rw [h1, h2]

theorem degPt_ok {I : Ivl} (h : I.okB = true) : degPt I = none := by
  rw [Ivl.okB] at h
  simp only [Bool.and_eq_true, decide_eq_true_eq] at h
  obtain ⟨⟨hlt, _⟩, _⟩ := h
  rw [degPt]
  cases hlo : I.lo with
  | fin a =>
    cases hhi : I.hi with
    | fin b =>
      rw [hlo, hhi] at hlt
      simp only [EPt.fin_lt_fin] at hlt
      show (if a = b ∧ I.lopen = false ∧ I.ropen = false then some a else none) = none
      rw [if_neg]
      rintro ⟨rfl, _⟩
      exact absurd hlt (lt_irrefl a)
    | ninf => rfl
    | pinf => rfl
  | ninf => rfl
  | pinf => rfl

theorem Ivl.lt_of_lo_lt {I J : Ivl} (h : I.lo < J.lo) : I < J := by
  show I.key < J.key
  rw [Ivl.key, Ivl.key]
  exact Prod.Lex.left _ _ h

theorem sorted_of_chainSep {l : List Ivl} (hc : chainSepB l = true)
    (hok : l.all Ivl.okB = true) : l.Sorted (· ≤ ·) := by
  have h1 := chainSepB_lo_chain l hc hok
  have h2 : l.Chain' (· < ·) := by
    exact List.Chain'.imp (fun I J hIJ => Ivl.lt_of_lo_lt hIJ) h1
  exact (List.chain'_iff_pairwise.mp h2).imp le_of_lt

theorem mergeAdjGo_sep : ∀ (f : ℕ) (l : List Ivl), chainSepB l = true →
    mergeAdjGo f l = l := by
  intro f
  induction f with
  | zero => intro l _; rfl
  | succ f ih =>
    intro l hc
    match l with
    | [] => rfl
    | [I] => rfl
    | I :: J :: rest =>
      rw [chainSepB] at hc
      simp only [Bool.and_eq_true] at hc
      rw [mergeAdjGo, if_pos hc.1]
      rw [ih (J :: rest) hc.2]

theorem canonize_fix (Is : List Ivl) (hok : Is.all Ivl.okB = true)
    (hsep : chainSepB Is = true) : canonize Is [] = assemble Is [] := by
  have hall : ∀ I ∈ Is, Ivl.okB I = true := List.all_eq_true.mp hok
  have e1 : Is.filterMap normIv = Is :=
    filterMap_some_id normIv Is fun I hI => normIv_ok (hall I hI)
  have e2 : Is.filterMap degPt = [] :=
    filterMap_none_nil degPt Is fun I hI => degPt_ok (hall I hI)
  rw [canonize, e1, e2]
  rw [List.Sorted.insertionSort_eq (sorted_of_chainSep hsep hok)]
  rw [mergeAdj, mergeAdjGo_sep _ _ hsep]
  rfl

/-! ## Shape of the rendered string -/

theorem fmtEP_chars (e : EPt) :
    ∀ c ∈ fmtEP e, c.isDigit = true ∨ c = '-' ∨ c = '/' ∨ c = '∞' := by
  cases e with
  | ninf =>
    intro c hc
    have hm : c ∈ ['-', '∞'] := hc
    simp only [List.mem_cons, List.not_mem_nil, or_false] at hm
    rcases hm with rfl | rfl <;> tauto
  | pinf =>
    intro c hc
    have hm : c ∈ ['∞'] := hc
    simp only [List.mem_singleton] at hm
    subst hm
    tauto
  | fin q =>
    intro c hc
    rcases fmtQ_chars q c hc with h | h | h <;> tauto

theorem fmtIvl_shape (I : Ivl) :
    fmtIvlChars I = (if I.lopen then '(' else '[') ::
      ((fmtEP I.lo ++ ',' :: ' ' :: fmtEP I.hi) ++ [if I.ropen then ')' else ']']) := by
  rw [fmtIvlChars]
  cases I.lopen <;> cases I.ropen <;> simp [List.append_assoc]

theorem listIntercalate_mem (sep : List Char) :
    ∀ (parts : List (List Char)) (c : Char), c ∈ listIntercalate sep parts →
      c ∈ sep ∨ ∃ p ∈ parts, c ∈ p := by
  intro parts
  induction parts with
  | nil => intro c hc; simp [listIntercalate] at hc
  | cons p rest ih =>
    intro c hc
    cases rest with
    | nil =>
      rw [listIntercalate] at hc
      exact Or.inr ⟨p, by simp, hc⟩
    | cons p' rest' =>
      rw [listIntercalate] at hc
      rcases List.mem_append.mp hc with h | h
      · rcases List.mem_append.mp h with h' | h'
        · exact Or.inr ⟨p, by simp, h'⟩
        · exact Or.inl h'
      · rcases ih c h with h' | ⟨p'', hp'', hc''⟩
        · exact Or.inl h'
        · exact Or.inr ⟨p'', List.mem_cons_of_mem p hp'', hc''⟩

theorem listIntercalate_single (sep p : List Char) : listIntercalate sep [p] = p := rfl

theorem listIntercalate_cons2 (sep p q : List Char) (rest : List (List Char)) :
    listIntercalate sep (p :: q :: rest) = p ++ sep ++ listIntercalate sep (q :: rest) := rfl

theorem body_ends (Is : List Ivl) (hne : Is ≠ []) :
    ∃ a mid d, listIntercalate [' ', 'U', ' '] (Is.map fmtIvlChars) = a :: (mid ++ [d]) ∧
      (a = '(' ∨ a = '[') ∧ (d = ')' ∨ d = ']') := by
  induction Is with
  | nil => exact absurd rfl hne
  | cons I t ih =>
    cases t with
    | nil =>
      refine ⟨(if I.lopen then '(' else '['), fmtEP I.lo ++ ',' :: ' ' :: fmtEP I.hi,
        (if I.ropen then ')' else ']'), ?_, ?_, ?_⟩
      · rw [List.map_cons, List.map_nil, listIntercalate_single, fmtIvl_shape]
      · cases I.lopen <;> simp
      · cases I.ropen <;> simp
    | cons I' t' =>
      obtain ⟨a2, mid2, d2, hb, ha2, hd2⟩ := ih (by simp)
      refine ⟨(if I.lopen then '(' else '['),
        (fmtEP I.lo ++ ',' :: ' ' :: fmtEP I.hi) ++ [if I.ropen then ')' else ']'] ++
          [' ', 'U', ' '] ++ (a2 :: mid2), d2, ?_, ?_, hd2⟩
      · rw [List.map_cons, List.map_cons]
        rw [listIntercalate_cons2, fmtIvl_shape, ← List.map_cons, hb]
        simp [List.append_assoc]
      · cases I.lopen <;> simp

theorem stripWS_ends (a d : Char) (mid : List Char) (ha : a.isWhitespace = false)
    (hd : d.isWhitespace = false) : stripWS (a :: (mid ++ [d])) = a :: (mid ++ [d]) := by
  rw [stripWS]
  rw [List.dropWhile_cons, if_neg (by rw [ha]; simp)]
  have h1 : (a :: (mid ++ [d])).reverse = d :: (mid.reverse ++ [a]) := by
    simp
  rw [h1]
  rw [List.dropWhile_cons, if_neg (by rw [hd]; simp)]
  simp

theorem fmtIvl_chars_mem (I : Ivl) : ∀ c ∈ fmtIvlChars I,
    c = '(' ∨ c = '[' ∨ c = ')' ∨ c = ']' ∨ c = ',' ∨ c = ' ' ∨
      c.isDigit = true ∨ c = '-' ∨ c = '/' ∨ c = '∞' := by
  intro c hc
  rw [fmtIvl_shape] at hc
  rcases List.mem_cons.mp hc with h | h
  · subst h
    cases I.lopen <;> tauto
  · rcases List.mem_append.mp h with h' | h'
    · rcases List.mem_append.mp h' with h2 | h2
      · rcases fmtEP_chars I.lo c h2 with h3 | h3 | h3 | h3 <;> tauto
      · rcases List.mem_cons.mp h2 with h3 | h3
        · tauto
        · rcases List.mem_cons.mp h3 with h4 | h4
          · tauto
          · rcases fmtEP_chars I.hi c h4 with h5 | h5 | h5 | h5 <;> tauto
    · rcases List.mem_singleton.mp h' with rfl
      cases I.ropen <;> tauto

theorem replaceChar_mem (c0 : Char) (rep l : List Char) :
    ∀ c ∈ replaceChar c0 rep l, c ∈ rep ∨ c ∈ l := by
  intro c hc
  rw [replaceChar] at hc
  obtain ⟨x, hx, hcx⟩ := List.mem_flatMap.mp hc
  by_cases hxc : x = c0
  · rw [if_pos hxc] at hcx
    exact Or.inl hcx
  · rw [if_neg hxc] at hcx
    simp only [List.mem_singleton] at hcx
    subst hcx
    exact Or.inr hx

theorem postChars_mem (l : List Char) : ∀ c ∈ postChars l, c = 'o' ∨ c ∈ l := by
  intro c hc
  rw [postChars] at hc
  rcases replaceChar_mem ' ' [] _ c hc with h | h
  · simp at h
  · rcases replaceChar_mem '∞' ['o', 'o'] l c h with h' | h'
    · simp only [List.mem_cons, List.not_mem_nil, or_false] at h'
      rcases h' with rfl | rfl <;> exact Or.inl rfl
    · exact Or.inr h'

theorem parse_render_ivls (Is : List Ivl) (hne : Is ≠ []) :
    parse_student_set (String.mk (listIntercalate [' ', 'U', ' '] (Is.map fmtIvlChars))) =
      .ok (some (canonize Is [])) := by
  obtain ⟨a, mid, d, hbody, ha, hd⟩ := body_ends Is hne
  have hstrip : stripWS (listIntercalate [' ', 'U', ' '] (Is.map fmtIvlChars)) =
      listIntercalate [' ', 'U', ' '] (Is.map fmtIvlChars) := by
    rw [hbody]
    exact stripWS_ends a d mid
      (by rcases ha with rfl | rfl <;> decide)
      (by rcases hd with rfl | rfl <;> decide)
  have hnotnil : listIntercalate [' ', 'U', ' '] (Is.map fmtIvlChars) ≠ [] := by
    rw [hbody]; simp
  have hcharset : ∀ c ∈ listIntercalate [' ', 'U', ' '] (Is.map fmtIvlChars),
      c = 'U' ∨ c = '(' ∨ c = '[' ∨ c = ')' ∨ c = ']' ∨ c = ',' ∨ c = ' ' ∨
        c.isDigit = true ∨ c = '-' ∨ c = '/' ∨ c = '∞' := by
    intro c hc
    rcases listIntercalate_mem _ _ c hc with h | ⟨p, hp, hcp⟩
    · simp only [List.mem_cons, List.not_mem_nil, or_false] at h
      rcases h with rfl | rfl | rfl
      · exact .inr (.inr (.inr (.inr (.inr (.inr (.inl rfl))))))
      · exact .inl rfl
      · exact .inr (.inr (.inr (.inr (.inr (.inr (.inl rfl))))))
    · obtain ⟨I, _, rfl⟩ := List.mem_map.mp hp
      rcases fmtIvl_chars_mem I c hcp with h | h | h | h | h | h | h | h | h | h
      · exact .inr (.inl h)
      · exact .inr (.inr (.inl h))
      · exact .inr (.inr (.inr (.inl h)))
      · exact .inr (.inr (.inr (.inr (.inl h))))
      · exact .inr (.inr (.inr (.inr (.inr (.inl h)))))
      · exact .inr (.inr (.inr (.inr (.inr (.inr (.inl h))))))
      · exact .inr (.inr (.inr (.inr (.inr (.inr (.inr (.inl h)))))))
      · exact .inr (.inr (.inr (.inr (.inr (.inr (.inr (.inr (.inl h))))))))
      · exact .inr (.inr (.inr (.inr (.inr (.inr (.inr (.inr (.inr (.inl h)))))))))
      · exact .inr (.inr (.inr (.inr (.inr (.inr (.inr (.inr (.inr (.inr h)))))))))
  have hUnion : '∪' ∉ listIntercalate [' ', 'U', ' '] (Is.map fmtIvlChars) := by
    intro hm
    rcases hcharset '∪' hm with h | h | h | h | h | h | h | h | h | h | h <;>
      exact absurd h (by decide)
  have hhead : ∀ (s : List Char) (c0 : Char),
      listIntercalate [' ', 'U', ' '] (Is.map fmtIvlChars) = s → s.head? = some c0 →
        a = c0 := by
    intro s c0 hs hh
    rw [← hs, hbody] at hh
    simpa using hh
  have hane : a ≠ '∅' ∧ a ≠ 'E' ∧ a ≠ 'R' ∧ a ≠ 'ℝ' := by
    rcases ha with rfl | rfl <;> refine ⟨by decide, by decide, by decide, by decide⟩
  have htok1 : ¬(listIntercalate [' ', 'U', ' '] (Is.map fmtIvlChars) = "∅".data ∨
      listIntercalate [' ', 'U', ' '] (Is.map fmtIvlChars) = "EmptySet".data) := by
    rintro (h | h)
    · exact hane.1 (hhead _ '∅' h rfl)
    · exact hane.2.1 (hhead _ 'E' h rfl)
  have htok2 : ¬(listIntercalate [' ', 'U', ' '] (Is.map fmtIvlChars) = "R".data ∨
      listIntercalate [' ', 'U', ' '] (Is.map fmtIvlChars) = "Reals".data ∨
      listIntercalate [' ', 'U', ' '] (Is.map fmtIvlChars) = "ℝ".data) := by
    rintro (h | h | h)
    · exact hane.2.2.1 (hhead _ 'R' h rfl)
    · exact hane.2.2.1 (hhead _ 'R' h rfl)
    · exact hane.2.2.2 (hhead _ 'ℝ' h rfl)
  have hUfree : ∀ p ∈ Is.map fun I => postChars (fmtIvlChars I), 'U' ∉ p := by
    intro p hp hm
    obtain ⟨I, _, rfl⟩ := List.mem_map.mp hp
    rcases postChars_mem _ 'U' hm with h | h
    · exact absurd h (by decide)
    · rcases fmtIvl_chars_mem I 'U' h with h' | h' | h' | h' | h' | h' | h' | h' | h' | h' <;>
        exact absurd h' (by decide)
  have hpost : postChars (listIntercalate [' ', 'U', ' '] (Is.map fmtIvlChars)) =
      listIntercalate ['U'] (Is.map fun I => postChars (fmtIvlChars I)) := by
    rw [postChars_intercalate, List.map_map]
    rfl
  have hmapne : (Is.map fun I => postChars (fmtIvlChars I)) ≠ [] := by
    cases Is with
    | nil => exact absurd rfl hne
    | cons I t => simp
  have hsplit : splitChar 'U' (postChars (listIntercalate [' ', 'U', ' ']
      (Is.map fmtIvlChars))) = Is.map fun I => postChars (fmtIvlChars I) := by
    rw [hpost]
    exact splitChar_intercalate 'U' _ hmapne hUfree
  rw [parse_student_set]
  show (if stripWS (listIntercalate [' ', 'U', ' '] (Is.map fmtIvlChars)) = [] then
      Except.ok none
    else _) = _
  rw [hstrip, if_neg hnotnil]
  rw [replaceChar_id '∪' ['U'] _ hUnion]
  rw [if_neg htok1, if_neg htok2]
  rw [hsplit, collectParts_fmtIvls]

/-! ## Claim C5: the student-notation round trip (corrected) -/

theorem uIvls_map_iv (args : List USet) (h : allIvB args = true) :
    (uIvls args).map USet.iv = args := by
  induction args with
  | nil => rfl
  | cons u rest ih =>
    cases u with
    | fin ps => simp [allIvB] at h
    | iv I =>
      rw [allIvB] at h
      simp only [List.all_cons, Bool.and_eq_true] at h
      have : uIvls (USet.iv I :: rest) = I :: uIvls rest := rfl
      rw [this, List.map_cons, ih (by rw [allIvB]; exact h.2)]

theorem uIvls_length (args : List USet) (h : allIvB args = true) :
    (uIvls args).length = args.length := by
  have := uIvls_map_iv args h
  calc (uIvls args).length = ((uIvls args).map USet.iv).length := (List.length_map _ _).symm
    _ = args.length := by rw [this]

theorem assemble_two (Is : List Ivl) (h : 2 ≤ Is.length) :
    assemble Is [] = .union (Is.map .iv) := by
  match Is with
  | [] => simp at h
  | [I] => simp at h
  | I :: J :: t => rfl

/-- C5 counterexample: the set `{2} ∪ [3, ∞)` is expressible in the
student grammar (it is what `"[2,2]U[3,oo)"` parses to), but rendering it
with the explanation formatting drops the point component, so parsing the
rendering does not give the set back. -/
theorem student_roundtrip_counterexample :
    parse_student_set ("[2,2]U[3,oo)") =
      .ok (some (SymSet.union [.fin [2], .iv ⟨.fin 3, .pinf, false, true⟩])) ∧
    (renderSet (SymSet.union [.fin [2], .iv ⟨.fin 3, .pinf, false, true⟩])).data =
      "[3, ∞)".data ∧
    parse_student_set (renderSet (SymSet.union [.fin [2], .iv ⟨.fin 3, .pinf, false, true⟩])) ≠
      .ok (some (SymSet.union [.fin [2], .iv ⟨.fin 3, .pinf, false, true⟩])) := by
  refine ⟨by rfl, by rfl, ?_⟩
  intro h
  have heval : parse_student_set (renderSet (SymSet.union [.fin [2],
      .iv ⟨.fin 3, .pinf, false, true⟩])) =
      .ok (some (SymSet.one (.iv ⟨.fin 3, .pinf, false, true⟩))) := by rfl
  rw [heval] at h
  simp at h

/-- C5 amended: for every nonempty canonical solution set whose components
are all proper intervals (no point components), parsing the rendered
explanation formatting gives the set back. -/
theorem student_roundtrip (S : SymSet) (h1 : isCanonB S = true) (h2 : S.pts = [])
    (h3 : S ≠ .empty) : parse_student_set (renderSet S) = .ok (some S) := by
  cases S with
  | empty => exact absurd rfl h3
  | one u =>
    cases u with
    | iv I =>
      have hok : [I].all Ivl.okB = true := by
        simp only [List.all_cons, List.all_nil, Bool.and_eq_true]
        exact ⟨h1, trivial⟩
      have hrender : renderSet (.one (.iv I)) =
          String.mk (listIntercalate [' ', 'U', ' '] ([I].map fmtIvlChars)) := rfl
      rw [hrender, parse_render_ivls [I] (by simp)]
      rw [canonize_fix [I] hok (by rfl)]
      rfl
    | fin ps =>
      exfalso
      have hps : ps = [] := h2
      subst hps
      have : finOkB [] = true := h1
      simp [finOkB] at this
  | union args =>
    cases args with
    | nil =>
      exfalso
      have hfalse : isCanonB (SymSet.union []) = false := rfl
      rw [hfalse] at h1
      exact Bool.noConfusion h1
    | cons u rest =>
      cases u with
      | fin ps =>
        exfalso
        rw [isCanonB] at h1
        simp only [Bool.and_eq_true] at h1
        have hfin : finOkB ps = true := h1.1.1.1.1.1
        have hpts : (SymSet.union (.fin ps :: rest)).pts =
            ps ++ rest.flatMap (fun u => match u with | .iv _ => [] | .fin ps' => ps') := rfl
        rw [hpts] at h2
        rcases List.append_eq_nil.mp h2 with ⟨hps, _⟩
        subst hps
        rw [finOkB] at hfin
        simp at hfin
      | iv I =>
        rw [isCanonB] at h1
        simp only [Bool.and_eq_true] at h1
        obtain ⟨⟨⟨hlen, hallIv⟩, hok⟩, hsep⟩ := h1
        have hrender : renderSet (.union (.iv I :: rest)) =
            String.mk (listIntercalate [' ', 'U', ' ']
              ((uIvls (.iv I :: rest)).map fmtIvlChars)) := rfl
        have hne2 : uIvls (.iv I :: rest) ≠ [] := by
          have huv : uIvls (.iv I :: rest) = I :: uIvls rest := rfl
          rw [huv]; simp
        rw [hrender, parse_render_ivls _ hne2]
        rw [canonize_fix _ hok hsep]
        rw [assemble_two _ (by
          rw [uIvls_length _ hallIv]
          simpa using hlen)]
        rw [uIvls_map_iv _ hallIv]
        intro ps rest1 hcontra
        simp at hcontra

/-- Witness for C5's amended claim at the half-open interval `[1, 2)`. -/
theorem student_roundtrip_witness :
    isCanonB (SymSet.one (.iv ⟨.fin 1, .fin 2, false, true⟩)) = true ∧
    (SymSet.one (.iv ⟨.fin 1, .fin 2, false, true⟩)).pts = [] ∧
    SymSet.one (.iv ⟨.fin 1, .fin 2, false, true⟩) ≠ SymSet.empty ∧
    parse_student_set (renderSet (SymSet.one (.iv ⟨.fin 1, .fin 2, false, true⟩))) =
      .ok (some (SymSet.one (.iv ⟨.fin 1, .fin 2, false, true⟩))) :=
  ⟨by decide, rfl, by decide,
    student_roundtrip (SymSet.one (.iv ⟨.fin 1, .fin 2, false, true⟩))
      (by decide) rfl (by decide)⟩
